import Mathlib

/-!
Shallow embedding of the guardrail-and-scaling core of the
intervals-icu-bulk-uploader-planned-workouts repository.

Sources embedded:
  - the guardrails module (types, day typing, daily caps, baseline, ramp,
    computeGuardrails);
  - src/src/lib/scale.ts (scaleWeekToTarget and its internals).

Modelling conventions:
  - JavaScript numbers are modelled as rationals; every finite JS number
    arithmetic used by the source (add, mul, div, Math.round, Math.min,
    Math.max, Math.sign, Math.abs) is exact on rationals, and the sources
    guard every NaN/Infinity entry point with Number.isFinite coercions,
    which are the identity on rationals.
  - Math.round rounds half toward positive infinity, so it is
    fun x => floor (x + 1/2).
  - Calendar dates (YYYY-MM-DD strings in the source, compared with
    localeCompare and bucketed by string equality) are modelled as natural
    day numbers; for well-formed ISO dates, string order and equality agree
    with day-number order and equality, and adding one day to the date is
    adding one to the day number.
  - A missing description is modelled as the empty string: the source reads
    descriptions only through the pattern (e.description || "").
  - JavaScript Array.prototype.sort with a comparator is stable; a stable
    sort is uniquely determined by the comparator, so it is modelled by
    insertion sort with the corresponding less-or-equal test.
  - The while loop of distributeDeltaAcrossEvents is modelled with explicit
    fuel; a result of none models a run of the source that never terminates.
    The fuel supplied is provably sufficient whenever min_step is at least 1
    (see applyNudges_some_of_one_le_step below), so none is only returned on
    inputs where the source loop really does run forever.
-/

/-! ### Numeric helpers (Math.round and friends) -/

/-- JS Math.round: round half toward positive infinity. -/
def jround (x : ℚ) : ℤ := ⌊x + 1/2⌋

/-- Guardrails safeInt: Number coercion, Number.isFinite check (identity on
rationals), then Math.round. -/
def safeInt (x : ℚ) : ℤ := jround x

/-- scale.ts toInt: same coercion as safeInt. -/
def toInt (x : ℚ) : ℤ := safeInt x

/-- Guardrails round0. -/
def round0 (x : ℚ) : ℚ := (jround x : ℚ)

/-- Guardrails round1: one decimal place. -/
def round1 (x : ℚ) : ℚ := (jround (x * 10) : ℚ) / 10

/-- scale.ts roundStep: round to the nearest multiple of step (plain
Math.round when step is at most 1). -/
def roundStep (n step : ℚ) : ℚ :=
  if step ≤ 1 then (jround n : ℚ) else (jround (n / step) : ℚ) * step

/-- JS Math.sign. -/
def jsign (x : ℚ) : ℚ := if 0 < x then 1 else if x < 0 then -1 else 0

/-! ### Strings: lower-casing and substring search (String.prototype.includes) -/

/-- Lower-cased character list of a string (String.prototype.toLowerCase on
the relevant ASCII vocabulary). -/
def lowerChars (s : String) : List Char := s.data.map Char.toLower

/-- Whether the second list is a prefix of the first. -/
def listStartsWith : List Char → List Char → Bool
  | _, [] => true
  | [], _ :: _ => false
  | a :: as, b :: bs => a = b && listStartsWith as bs

/-- Whether pat occurs as a contiguous substring of hay. -/
def listContainsSub : List Char → List Char → Bool
  | hay, pat =>
    if listStartsWith hay pat then true
    else
      match hay with
      | [] => false
      | _ :: t => listContainsSub t pat

/-- JS String.prototype.includes on a lower-cased haystack. -/
def strIncludes (hay : List Char) (pat : String) : Bool :=
  listContainsSub hay pat.data

/-! ### Data model -/

/-- Activity kinds accepted by the planner (the closed set of the schema). -/
inductive ActivityType
  | Ride
  | GravelRide
  | VirtualRide
  | Run
  | Swim
  | Workout
deriving DecidableEq, Repr

/-- A planned workout event. start_date_local (a YYYY-MM-DDTHH:MM string in
the source, consumed only through slice(0,10) and as an opaque value) is
modelled as the day number startDate plus the remaining text startTime.
The category field is the string constant WORKOUT at the type level in the
source and is omitted. -/
structure WorkoutEvent where
  external_id : String
  startDate : Nat
  startTime : String
  type : ActivityType
  moving_time : ℚ
  icu_training_load : ℚ
  description : String
deriving DecidableEq, Repr

/-- A planned week: week-start date plus events. -/
structure WeekPlan where
  week_start : Nat
  events : List WorkoutEvent
deriving DecidableEq, Repr

/-- Daily cap ceilings. -/
structure DailyCaps where
  hard : ℚ
  endurance : ℚ
  long_ride : ℚ
deriving DecidableEq, Repr

/-- Guardrail configuration. -/
structure GuardrailConfig where
  ramp_warn_pct : ℚ
  ramp_stop_pct : ℚ
  daily_caps : DailyCaps
  min_step : ℚ
  baseline_window_days : ℚ
deriving DecidableEq, Repr

/-- Day classification. -/
inductive DayType
  | hard
  | endurance
  | recovery
  | rest
deriving DecidableEq, Repr

/-- Ramp severity tier. -/
inductive Severity
  | none
  | info
  | warn
  | stop
deriving DecidableEq, Repr

/-- Daily cap breach codes. -/
inductive Breach
  | hard_cap
  | endurance_cap
  | long_ride_cap
deriving DecidableEq, Repr

/-- Per-day diagnostic record. -/
structure DailyCheck where
  date : Nat
  totalLoad : ℚ
  totalMovingTime : ℚ
  dayType : DayType
  capApplied : Option ℚ
  overBy : ℚ
  breaches : List Breach
deriving DecidableEq, Repr

/-- Guardrail summary for one week. -/
structure GuardrailSummary where
  plannedWeekLoad : ℚ
  baselineWeeklyLoad : ℚ
  rampPct : ℚ
  rampSeverity : Severity
  daily : List DailyCheck
deriving DecidableEq, Repr

/-- History inputs for the baseline estimator. An absent optional list and an
empty list behave identically in the source (both fail the nonempty guard),
so both are modelled as the empty list. -/
structure HistoryInputs where
  actualDailyLoads : List (Nat × ℚ)
  previousPlannedWeeks : List WeekPlan
deriving DecidableEq, Repr

/-- The reference default configuration DEFAULT_GUARDRAILS. -/
def DEFAULT_GUARDRAILS : GuardrailConfig :=
  { ramp_warn_pct := 8
    ramp_stop_pct := 12
    daily_caps := { hard := 140, endurance := 90, long_ride := 180 }
    min_step := 2
    baseline_window_days := 28 }

/-- Long-ride duration threshold: 3 hours in seconds. -/
def LONG_RIDE_TIME_THRESHOLD_SEC : ℚ := 3 * 3600

/-! ### Shared small folds -/

/-- Sum of safeInt-coerced training loads of a list of events. -/
def sumLoads (events : List WorkoutEvent) : ℚ :=
  events.foldl (fun s e => s + (safeInt e.icu_training_load : ℚ)) 0

/-- Sum of moving times; (e.moving_time || 0) is the identity on rationals. -/
def sumMovingTime (events : List WorkoutEvent) : ℚ :=
  events.foldl (fun s e => s + e.moving_time) 0

/-! ### Day classifier (guardrails inferDayType) -/

/-- Hard-intensity description vocabulary. -/
def hardHints : List String :=
  ["vo2", "voâ‚‚", "anaerobic", "race", "crit", "over-under", "over under",
   "o/u", "threshold", "sweet spot", "ss", "climb repeats", "sprint",
   "attacks", "@ 1.0", "@1.0", "% of ftp", "120%", "110%", "105%"]

/-- Endurance description vocabulary. -/
def enduHints : List String :=
  ["endurance", "z2", "zone 2", "aerobic", "base", "tempo", "grp ride",
   "group ride"]

/-- Recovery description vocabulary. -/
def recHints : List String :=
  ["recovery", "z1", "easy", "spin"]

/-- Guardrails scoreEventHardness: score one event 1-3. -/
def scoreEventHardness (e : WorkoutEvent) : ℤ :=
  let desc := lowerChars e.description
  let load := safeInt e.icu_training_load
  if hardHints.any (fun h => strIncludes desc h) then 3
  else if e.type = ActivityType.Workout ∧ 70 ≤ load then 3
  else if 100 ≤ load then 3
  else if enduHints.any (fun h => strIncludes desc h) then 2
  else if recHints.any (fun h => strIncludes desc h) then 1
  else if e.type = ActivityType.Ride ∨ e.type = ActivityType.GravelRide ∨
          e.type = ActivityType.VirtualRide then 2
  else if e.type = ActivityType.Workout then 3
  else 2

/-- Guardrails hardnessToDayType. -/
def hardnessToDayType (score : ℤ) : DayType :=
  if 3 ≤ score then DayType.hard
  else if score = 2 then DayType.endurance
  else if score = 1 then DayType.recovery
  else DayType.endurance

/-- Guardrails inferDayType: scan events, keeping the label of the first
entry achieving the running maximum score (strict greater-than update). -/
def inferDayType (events : List WorkoutEvent) : DayType :=
  if events.isEmpty then DayType.rest
  else
    (events.foldl
      (fun (st : ℤ × DayType) e =>
        let s := scoreEventHardness e
        if st.1 < s then (s, hardnessToDayType s) else st)
      (-1, DayType.endurance)).2

/-! ### Long-ride hints (two distinct vocabularies in the source) -/

/-- Joined, lower-cased description text of a day's events. -/
def joinedDescChars (events : List WorkoutEvent) : List Char :=
  lowerChars (String.intercalate (" ") (events.map (fun e => e.description)))

/-- Guardrails hasLongRideHint: matches "long ride" or any occurrence of the
two-letter substring "lr". -/
def hasLongRideHintG (events : List WorkoutEvent) : Bool :=
  let desc := joinedDescChars events
  strIncludes desc ("long ride") || strIncludes desc ("lr")

/-- scale.ts hasLongRideHint: a stricter vocabulary than the guardrails one. -/
def hasLongRideHintS (events : List WorkoutEvent) : Bool :=
  let desc := joinedDescChars events
  strIncludes desc ("long ride") || strIncludes desc (" lr ") ||
    strIncludes desc (" lr:") || strIncludes desc ("endurance long ride")

/-! ### Day checker (guardrails checkDay) -/

/-- One day bucket: a date and the events on that date. -/
structure DayBucket where
  date : Nat
  events : List WorkoutEvent
deriving DecidableEq, Repr

/-- Guardrails checkDay: per-day totals, day type, binding cap, overage and
breach codes. -/
def checkDay (bucket : DayBucket) (config : GuardrailConfig) : DailyCheck :=
  let totalLoad := sumLoads bucket.events
  let totalMovingTime := sumMovingTime bucket.events
  let dayType := inferDayType bucket.events
  let primary : Option ℚ × List Breach :=
    match dayType with
    | DayType.hard =>
        (some config.daily_caps.hard,
         if config.daily_caps.hard < totalLoad then [Breach.hard_cap] else [])
    | DayType.endurance =>
        (some config.daily_caps.endurance,
         if config.daily_caps.endurance < totalLoad then [Breach.endurance_cap] else [])
    | DayType.recovery =>
        let recoveryCap := min config.daily_caps.endurance 50
        (some recoveryCap,
         if recoveryCap < totalLoad then [Breach.endurance_cap] else [])
    | DayType.rest => (none, [])
  let isLongRide :=
    LONG_RIDE_TIME_THRESHOLD_SEC ≤ totalMovingTime || hasLongRideHintG bucket.events
  let breaches :=
    primary.2 ++
      (if isLongRide ∧ config.daily_caps.long_ride < totalLoad
       then [Breach.long_ride_cap] else [])
  let capApplied :=
    if isLongRide then
      some (match primary.1 with
            | none => config.daily_caps.long_ride
            | some c => min c config.daily_caps.long_ride)
    else primary.1
  let overBy : ℚ :=
    match capApplied with
    | none => 0
    | some c => max 0 (totalLoad - c)
  { date := bucket.date
    totalLoad := round0 totalLoad
    totalMovingTime := totalMovingTime
    dayType := dayType
    capApplied := capApplied
    overBy := round0 overBy
    breaches := breaches }

/-! ### Grouping events into day buckets -/

/-- Append each element of xs to acc unless already present: the key order of
a JS Map built with repeated set calls. -/
def addAbsent (acc : List Nat) (xs : List Nat) : List Nat :=
  xs.foldl (fun ks d => if d ∈ ks then ks else ks ++ [d]) acc

/-- Stable sort of day buckets by date: JS sort with a date comparator. -/
def sortBucketsByDate (l : List DayBucket) : List DayBucket :=
  List.insertionSort (fun a b => a.date ≤ b.date) l

/-- Guardrails groupEventsByDate: bucket events by date, then ensure all 7
dates of the week window exist, then sort by date. Dates outside the window
are kept. -/
def groupEventsByDate (week : WeekPlan) : List DayBucket :=
  let ks0 := addAbsent [] (week.events.map (fun e => e.startDate))
  let ks := addAbsent ks0 ((List.range 7).map (fun i => week.week_start + i))
  sortBucketsByDate
    (ks.map (fun d => DayBucket.mk d (week.events.filter (fun e => e.startDate = d))))

/-! ### Baseline estimator and ramp analyzer -/

/-- Last n elements of a list (JS slice(-n) for positive n). -/
def takeLastN (n : Nat) (l : List α) : List α := l.drop (l.length - n)

/-- Guardrails sumPlannedLoad. -/
def sumPlannedLoad (w : WeekPlan) : ℚ := sumLoads w.events

/-- Stable sort of (date, load) pairs by date. -/
def sortActualsByDate (l : List (Nat × ℚ)) : List (Nat × ℚ) :=
  List.insertionSort (fun a b => a.1 ≤ b.1) l

/-- Guardrails calcBaselineWeekly: actual history, else prior planned weeks,
else the supplied fallback (the current week's planned load). -/
def calcBaselineWeekly (history : HistoryInputs) (config : GuardrailConfig)
    (fallbackWeekLoad : ℚ) : ℚ :=
  let window : ℤ := max 7 ⌊config.baseline_window_days⌋
  if history.actualDailyLoads ≠ [] then
    let sorted := sortActualsByDate history.actualDailyLoads
    let lastN := takeLastN window.toNat sorted
    let sum := lastN.foldl (fun s x => s + x.2) 0
    let dailyAvg := sum / max 1 (lastN.length : ℚ)
    round1 (dailyAvg * 7)
  else if history.previousPlannedWeeks ≠ [] then
    let lastTwo := takeLastN 2 history.previousPlannedWeeks
    let loads := lastTwo.map sumPlannedLoad
    let avg := loads.foldl (fun s x => s + x) 0 / (lastTwo.length : ℚ)
    round1 avg
  else
    round1 fallbackWeekLoad

/-- Guardrails calcRampPct. -/
def calcRampPct (planned baseline : ℚ) : ℚ :=
  if baseline ≤ 0 then 0
  else round1 ((planned - baseline) / baseline * 100)

/-- Guardrails mapSeverity. -/
def mapSeverity (pct : ℚ) (config : GuardrailConfig) : Severity :=
  if pct < 1/10000 then Severity.none
  else if pct < config.ramp_warn_pct then Severity.info
  else if pct < config.ramp_stop_pct then Severity.warn
  else Severity.stop

/-- Guardrails computeGuardrails. -/
def computeGuardrails (week : WeekPlan) (history : HistoryInputs)
    (config : GuardrailConfig) : GuardrailSummary :=
  let dailyChecks := (groupEventsByDate week).map (fun d => checkDay d config)
  let plannedWeekLoad := dailyChecks.foldl (fun s d => s + d.totalLoad) 0
  let baselineWeeklyLoad := calcBaselineWeekly history config plannedWeekLoad
  let rampPct := calcRampPct plannedWeekLoad baselineWeeklyLoad
  { plannedWeekLoad := plannedWeekLoad
    baselineWeeklyLoad := baselineWeeklyLoad
    rampPct := rampPct
    rampSeverity := mapSeverity rampPct config
    daily := dailyChecks }

/-! ### Scaler (scale.ts) -/

/-- Scale options after withDefaults has filled every field (an absent
targetWeeklyLoad or scalePct defaults to 0, the booleans to true). -/
structure ScaleOptions where
  targetWeeklyLoad : ℚ
  scalePct : ℚ
  lockRestDays : Bool
  respectCaps : Bool
deriving DecidableEq, Repr

/-- Per-day change record of a ScaleResult. -/
structure DayChange where
  date : Nat
  before : ℚ
  after : ℚ
  appliedDelta : ℚ
  capApplied : Option ℚ
deriving DecidableEq, Repr

/-- Result of scaleWeekToTarget. -/
structure ScaleResult where
  beforeLoad : ℚ
  afterLoad : ℚ
  requestedTarget : ℚ
  residual : ℚ
  changes : List DayChange
  week : WeekPlan
deriving DecidableEq, Repr

/-- scale.ts resolveTarget: on rationals, the truthiness guard (x && x > 0)
is equivalent to 0 < x. -/
def resolveTarget (beforeLoad : ℚ) (opts : ScaleOptions) : ℚ :=
  if 0 < opts.targetWeeklyLoad then round0 opts.targetWeeklyLoad
  else if 0 < opts.scalePct then round0 (beforeLoad * (opts.scalePct / 100))
  else beforeLoad

/-- scale.ts groupByDate: bucket by date and sort; only dates present in the
plan, no week-window fill. -/
def groupByDate (week : WeekPlan) : List DayBucket :=
  let ks := addAbsent [] (week.events.map (fun e => e.startDate))
  sortBucketsByDate
    (ks.map (fun d => DayBucket.mk d (week.events.filter (fun e => e.startDate = d))))

/-- Per-day analysis record of the Scaler. -/
structure DayInfo where
  date : Nat
  events : List WorkoutEvent
  totalLoad : ℚ
  totalMovingTime : ℚ
  dayType : DayType
  capApplied : Option ℚ
deriving DecidableEq, Repr

/-- scale.ts analyzeDay: totals, day type, and (only when respectCaps) the
binding cap, combining the primary day-type cap with the long-ride cap. -/
def analyzeDay (bucket : DayBucket) (config : GuardrailConfig)
    (opts : ScaleOptions) : DayInfo :=
  let totalLoad := sumLoads bucket.events
  let totalMovingTime := sumMovingTime bucket.events
  let dayType := inferDayType bucket.events
  let capApplied : Option ℚ :=
    if opts.respectCaps then
      let primary : Option ℚ :=
        match dayType with
        | DayType.hard => some config.daily_caps.hard
        | DayType.endurance => some config.daily_caps.endurance
        | DayType.recovery => some (min config.daily_caps.endurance 50)
        | DayType.rest => none
      let isLongRide :=
        LONG_RIDE_TIME_THRESHOLD_SEC ≤ totalMovingTime || hasLongRideHintS bucket.events
      if isLongRide then
        some (match primary with
              | none => config.daily_caps.long_ride
              | some c => min c config.daily_caps.long_ride)
      else primary
    else none
  { date := bucket.date
    events := bucket.events
    totalLoad := totalLoad
    totalMovingTime := totalMovingTime
    dayType := dayType
    capApplied := capApplied }

/-- scale.ts dayWeight. -/
def dayWeight (t : DayType) (opts : ScaleOptions) : ℚ :=
  if t = DayType.rest ∧ opts.lockRestDays then 0
  else
    match t with
    | DayType.hard => 1
    | DayType.endurance => 6/10
    | DayType.recovery => 2/10
    | DayType.rest => 0

/-- scale.ts cloneEvent: copy the event, normalising the load with toInt. -/
def cloneEvent (e : WorkoutEvent) : WorkoutEvent :=
  { e with icu_training_load := (toInt e.icu_training_load : ℚ) }

/-- Floor a negative load at zero (the post-assignment clamp of the source). -/
def clampLoad (e : WorkoutEvent) : WorkoutEvent :=
  if e.icu_training_load < 0 then { e with icu_training_load := 0 } else e

/-- scale.ts indexOfMaxLoad: index of the first event whose toInt load is
strictly greater than every earlier one (the running max starts below every
number, modelled with none). -/
def indexOfMaxLoad (events : List WorkoutEvent) : Nat :=
  (events.foldl
    (fun (st : Nat × Nat × Option ℤ) e =>
      let v := toInt e.icu_training_load
      let better :=
        match st.2.2 with
        | none => true
        | some m => m < v
      (st.1 + 1, (if better then st.1 else st.2.1), if better then some v else st.2.2))
    (0, 0, none)).2.1

/-- The drift-correction while loop of distributeDeltaAcrossEvents, with
explicit fuel. none models a non-terminating run of the source loop. -/
def applyNudges (step : ℚ) : Nat → ℚ → List WorkoutEvent → Option (List WorkoutEvent)
  | fuel, drift, evs =>
    if drift = 0 then some evs
    else
      match fuel with
      | 0 => none
      | fuel' + 1 =>
        let idx := indexOfMaxLoad evs
        let inc := jsign drift * min |drift| step
        let evs' :=
          match evs[idx]? with
          | some e =>
              evs.set idx
                (clampLoad { e with icu_training_load := (toInt (e.icu_training_load + inc) : ℚ) })
          | none => evs
        applyNudges step fuel' (drift - inc) evs'

/-- Fuel supplied to the drift loop: enough iterations whenever step is at
least 1 (each iteration then lowers the absolute drift by at least
min(drift, 1)). -/
def nudgeFuel (drift : ℚ) : Nat := (⌈|drift|⌉).toNat + 1

/-- The rounded per-event shares of the multi-event distribution pass:
weights proportional to each event's clamped toInt load (an even split when
the load sum is zero), each share rounded to the step. -/
def steppedShares (events : List WorkoutEvent) (totalDelta step : ℚ) : List ℚ :=
  let loads : List ℤ := events.map (fun e => max 0 (toInt e.icu_training_load))
  let sum : ℤ := loads.foldl (fun s x => s + x) 0
  let weights : List ℚ :=
    if 0 < sum then loads.map (fun (x : ℤ) => (x : ℚ) / (sum : ℚ))
    else events.map (fun _ => 1 / (events.length : ℚ))
  weights.map (fun w => roundStep (totalDelta * w) step)

/-- Apply the stepped deltas to cloned events, flooring each load at zero. -/
def applyStepped (events : List WorkoutEvent) (stepped : List ℚ) : List WorkoutEvent :=
  ((events.map cloneEvent).zip stepped).map
    (fun p => clampLoad { p.1 with
      icu_training_load := (toInt (p.1.icu_training_load + p.2) : ℚ) })

/-- scale.ts distributeDeltaAcrossEvents: split totalDelta over the day's
events proportionally to load (evenly when all loads are zero), round each
share to the step, then nudge the currently-largest-load event by one step
at a time to absorb rounding drift. -/
def distributeDeltaAcrossEvents (events : List WorkoutEvent) (totalDelta step : ℚ) :
    Option (List WorkoutEvent) :=
  if totalDelta = 0 then some (events.map cloneEvent)
  else
    match events with
    | [] => some []
    | [e] =>
        let e' := cloneEvent e
        some [clampLoad { e' with
          icu_training_load := (toInt (e'.icu_training_load + totalDelta) : ℚ) }]
    | _ =>
        let stepped := steppedShares events totalDelta step
        let drift := totalDelta - stepped.foldl (fun s x => s + x) 0
        applyNudges step (nudgeFuel drift) drift (applyStepped events stepped)

/-- Intermediate result of applyDayDelta. -/
structure AppliedDay where
  info : DayInfo
  desiredDelta : ℚ
  updatedEvents : List WorkoutEvent
  newTotal : ℚ
deriving DecidableEq, Repr

/-- scale.ts applyDayDelta: clamp the proposed day total into [0, cap] when
caps are respected, round to the step, and distribute across the day's
events. -/
def applyDayDelta (d : DayInfo) (desiredDelta : ℚ) (config : GuardrailConfig)
    (opts : ScaleOptions) : Option AppliedDay :=
  let t0 := d.totalLoad + desiredDelta
  let t1 :=
    match opts.respectCaps, d.capApplied with
    | true, some c => min (max 0 t0) c
    | _, _ => t0
  let targetTotal := roundStep t1 config.min_step
  let appliedDelta := targetTotal - d.totalLoad
  (distributeDeltaAcrossEvents d.events appliedDelta config.min_step).map
    (fun updated =>
      { info := d
        desiredDelta := desiredDelta
        updatedEvents := updated
        newTotal := sumLoads updated })

/-- Option-valued map over a list, failing when any element fails. -/
def mapOpt (f : α → Option β) : List α → Option (List β)
  | [] => some []
  | x :: xs =>
    match f x with
    | none => none
    | some y => (mapOpt f xs).map (fun ys => y :: ys)

/-- The Scaler's per-day analyses for a week. -/
def dayInfosOf (w : WeekPlan) (config : GuardrailConfig) (opts : ScaleOptions) :
    List DayInfo :=
  (groupByDate w).map (fun b => analyzeDay b config opts)

/-- The Scaler's beforeLoad: sum of the day totals. -/
def beforeLoadOf (w : WeekPlan) (config : GuardrailConfig) (opts : ScaleOptions) : ℚ :=
  (dayInfosOf w config opts).foldl (fun s d => s + d.totalLoad) 0

/-- The Scaler's resolved numeric target. -/
def requestedTargetOf (w : WeekPlan) (config : GuardrailConfig)
    (opts : ScaleOptions) : ℚ :=
  resolveTarget (beforeLoadOf w config opts) opts

/-- The Scaler's sum of day weights. -/
def sumWeightsOf (w : WeekPlan) (config : GuardrailConfig) (opts : ScaleOptions) : ℚ :=
  (dayInfosOf w config opts).foldl (fun s d => s + dayWeight d.dayType opts) 0

/-- Modelled from the spec: the helper finalize is called in
src/src/lib/scale.ts (no-op early returns) but its definition is missing
from the repository sources; per the spec it returns an explicit no-op
ScaleResult (afterLoad equal to beforeLoad, empty changes, the input week
unchanged, residual = requestedTarget - afterLoad). -/
def finalizeNoop (w : WeekPlan) (before after target : ℚ) : ScaleResult :=
  { beforeLoad := before
    afterLoad := after
    requestedTarget := target
    residual := target - after
    changes := []
    week := w }

/-- scale.ts scaleWeekToTarget. none models a non-terminating run of the
source (possible only when min_step < 1; see
scaleWeekToTarget_some_of_one_le_step). -/
def scaleWeekToTarget (w : WeekPlan) (config : GuardrailConfig)
    (opts : ScaleOptions) : Option ScaleResult :=
  let dayInfos := dayInfosOf w config opts
  let beforeLoad := beforeLoadOf w config opts
  let requestedTarget := requestedTargetOf w config opts
  let delta := requestedTarget - beforeLoad
  if |delta| < config.min_step then
    some (finalizeNoop w beforeLoad beforeLoad requestedTarget)
  else
    let sumW := sumWeightsOf w config opts
    if sumW ≤ 0 then some (finalizeNoop w beforeLoad beforeLoad requestedTarget)
    else
      (mapOpt
        (fun d =>
          applyDayDelta d
            (roundStep (delta * (dayWeight d.dayType opts / sumW)) config.min_step)
            config opts)
        dayInfos).map
        (fun applied =>
          let changes := applied.map
            (fun a =>
              DayChange.mk a.info.date a.info.totalLoad a.newTotal
                (a.newTotal - a.info.totalLoad) a.info.capApplied)
          let updatedEvents := applied.foldl (fun acc a => acc ++ a.updatedEvents) []
          let afterLoad := changes.foldl (fun s c => s + c.after) 0
          { beforeLoad := beforeLoad
            afterLoad := afterLoad
            requestedTarget := requestedTarget
            residual := requestedTarget - afterLoad
            changes := changes
            week := { week_start := w.week_start, events := updatedEvents } })

/-! ### Shared helper lemmas -/

theorem jround_intCast (k : ℤ) : jround (k : ℚ) = k := by
  unfold jround
  rw [add_comm]
  norm_num [Int.floor_add_int]

theorem round0_intCast (k : ℤ) : round0 (k : ℚ) = (k : ℚ) := by
  simp [round0, jround_intCast]

theorem round1_intCast (k : ℤ) : round1 (k : ℚ) = (k : ℚ) := by
  have h : ((k : ℚ)) * 10 = ((k * 10 : ℤ) : ℚ) := by push_cast; ring
  rw [round1, h, jround_intCast]
  push_cast
  ring

theorem foldl_add_map (f : α → ℚ) (l : List α) (a : ℚ) :
    l.foldl (fun s x => s + f x) a = a + (l.map f).sum := by
  induction l generalizing a with
  | nil => simp
  | cons x xs ih => simp [ih, add_assoc]

theorem foldl_add_self (l : List ℚ) (a : ℚ) :
    l.foldl (fun s x => s + x) a = a + l.sum := by
  induction l generalizing a with
  | nil => simp
  | cons x xs ih => simp [ih, add_assoc]

theorem exists_int_foldl (g : α → ℚ) (l : List α)
    (h : ∀ x ∈ l, ∃ k : ℤ, g x = (k : ℚ)) :
    ∃ K : ℤ, l.foldl (fun s x => s + g x) 0 = (K : ℚ) := by
  induction l with
  | nil => exact ⟨0, by simp⟩
  | cons x xs ih =>
    obtain ⟨k, hk⟩ := h x (List.mem_cons_self x xs)
    obtain ⟨K, hK⟩ := ih (fun y hy => h y (List.mem_cons_of_mem x hy))
    refine ⟨k + K, ?_⟩
    rw [foldl_add_map] at hK ⊢
    simp only [List.map_cons, List.sum_cons]
    push_cast
    rw [hk]
    linarith

/-! ### Claim C9: ramp percentage and severity mapping -/

/-- C9: calcRampPct returns 0 when the baseline is nonpositive and otherwise
the one-decimal rounding of (planned - baseline) / baseline * 100; mapSeverity
maps sub-0.0001 ramps to none, ramps below the warn threshold to info, below
the stop threshold to warn, and anything else to stop; with the reference
thresholds (warn 8, stop 12): 0 is none, 3 is info, 9 is warn, 20 is stop, and
calcRampPct 112 100 = 12.0. -/
theorem calcRampPct_mapSeverity_spec (p b x : ℚ) (cfg : GuardrailConfig) :
    calcRampPct p b = (if b ≤ 0 then 0 else round1 ((p - b) / b * 100)) ∧
    mapSeverity x cfg =
      (if x < 1/10000 then Severity.none
       else if x < cfg.ramp_warn_pct then Severity.info
       else if x < cfg.ramp_stop_pct then Severity.warn
       else Severity.stop) ∧
    calcRampPct 112 100 = 12 ∧
    calcRampPct p 0 = 0 ∧
    mapSeverity 0 DEFAULT_GUARDRAILS = Severity.none ∧
    mapSeverity 3 DEFAULT_GUARDRAILS = Severity.info ∧
    mapSeverity 9 DEFAULT_GUARDRAILS = Severity.warn ∧
    mapSeverity 20 DEFAULT_GUARDRAILS = Severity.stop := by
  refine ⟨rfl, rfl, ?_, ?_, ?_, ?_, ?_, ?_⟩
  · norm_num [calcRampPct, round1, jround]
  · norm_num [calcRampPct]
  · norm_num [mapSeverity, DEFAULT_GUARDRAILS]
  · norm_num [mapSeverity, DEFAULT_GUARDRAILS]
  · norm_num [mapSeverity, DEFAULT_GUARDRAILS]
  · norm_num [mapSeverity, DEFAULT_GUARDRAILS]

/-! ### Claim C8: day classification -/

/-- Running maximum hardness score of a list of events, from the source's
initial value -1. -/
def maxHardness (events : List WorkoutEvent) : ℤ :=
  events.foldl (fun m e => max m (scoreEventHardness e)) (-1)

/-- Spec-side day classification, following the claim's words: the label of
the first entry achieving the maximum hardness score in scan order, rest for
an empty entry set. -/
def specDayType (events : List WorkoutEvent) : DayType :=
  if events = [] then DayType.rest
  else
    match events.find? (fun e => scoreEventHardness e = maxHardness events) with
    | some e => hardnessToDayType (scoreEventHardness e)
    | none => DayType.endurance

theorem scoreEventHardness_bounds (e : WorkoutEvent) :
    1 ≤ scoreEventHardness e ∧ scoreEventHardness e ≤ 3 := by
  simp only [scoreEventHardness]
  split_ifs <;> norm_num

theorem hardnessToDayType_ne_rest (s : ℤ) : hardnessToDayType s ≠ DayType.rest := by
  unfold hardnessToDayType
  split_ifs <;> simp

theorem le_foldl_max (l : List WorkoutEvent) (m : ℤ) :
    m ≤ l.foldl (fun mm e => max mm (scoreEventHardness e)) m := by
  induction l generalizing m with
  | nil => simp
  | cons x xs ih => exact le_trans (le_max_left _ _) (ih _)

theorem foldl_max_attained (l : List WorkoutEvent) (m : ℤ) :
    (∃ e ∈ l, scoreEventHardness e = l.foldl (fun mm e => max mm (scoreEventHardness e)) m) ∨
      l.foldl (fun mm e => max mm (scoreEventHardness e)) m = m := by
  induction l generalizing m with
  | nil => simp
  | cons x xs ih =>
    simp only [List.foldl_cons]
    rcases ih (max m (scoreEventHardness x)) with ⟨e, he, hse⟩ | heq
    · exact Or.inl ⟨e, List.mem_cons_of_mem x he, hse⟩
    · rcases le_or_lt (scoreEventHardness x) m with hle | hlt
      · right
        rw [heq]
        exact max_eq_left hle
      · left
        refine ⟨x, List.mem_cons_self x xs, ?_⟩
        rw [heq]
        exact (max_eq_right hlt.le).symm

theorem inferDayType_fold (l : List WorkoutEvent) (m : ℤ) (c : DayType) :
    l.foldl
        (fun (st : ℤ × DayType) e =>
          let s := scoreEventHardness e
          if st.1 < s then (s, hardnessToDayType s) else st)
        (m, c) =
      (l.foldl (fun mm e => max mm (scoreEventHardness e)) m,
       if m < l.foldl (fun mm e => max mm (scoreEventHardness e)) m
       then hardnessToDayType (l.foldl (fun mm e => max mm (scoreEventHardness e)) m)
       else c) := by
  induction l generalizing m c with
  | nil => simp
  | cons x xs ih =>
    simp only [List.foldl_cons]
    rcases lt_or_le m (scoreEventHardness x) with hlt | hle
    · rw [if_pos hlt, ih, max_eq_right hlt.le]
      have hge := le_foldl_max xs (scoreEventHardness x)
      have hmlt : m < xs.foldl (fun mm e => max mm (scoreEventHardness e)) (scoreEventHardness x) :=
        lt_of_lt_of_le hlt hge
      rw [if_pos hmlt]
      rcases lt_or_le (scoreEventHardness x)
          (xs.foldl (fun mm e => max mm (scoreEventHardness e)) (scoreEventHardness x)) with h2 | h2
      · rw [if_pos h2]
      · have : xs.foldl (fun mm e => max mm (scoreEventHardness e)) (scoreEventHardness x) =
            scoreEventHardness x := le_antisymm h2 hge
        rw [if_neg (by omega), this]
    · rw [if_neg (not_lt.mpr hle), ih, max_eq_left hle]

theorem maxHardness_def (l : List WorkoutEvent) :
    maxHardness l = l.foldl (fun mm e => max mm (scoreEventHardness e)) (-1) := rfl

theorem one_le_maxHardness (l : List WorkoutEvent) (hne : l ≠ []) :
    1 ≤ maxHardness l := by
  rcases l with _ | ⟨x, xs⟩
  · exact absurd rfl hne
  · have h1 := (scoreEventHardness_bounds x).1
    have h2 := le_foldl_max xs (max (-1) (scoreEventHardness x))
    rw [maxHardness_def]
    simp only [List.foldl_cons]
    have h3 : (1 : ℤ) ≤ max (-1) (scoreEventHardness x) :=
      le_trans h1 (le_max_right _ _)
    omega

theorem maxHardness_attained (l : List WorkoutEvent) (hne : l ≠ []) :
    ∃ e ∈ l, scoreEventHardness e = maxHardness l := by
  rcases foldl_max_attained l (-1) with h | h
  · exact h
  · exfalso
    have h1 := one_le_maxHardness l hne
    rw [maxHardness_def] at h1
    omega

theorem inferDayType_eq_max (l : List WorkoutEvent) (hne : l ≠ []) :
    inferDayType l = hardnessToDayType (maxHardness l) := by
  unfold inferDayType
  rw [if_neg (by simpa [List.isEmpty_iff] using hne)]
  rw [inferDayType_fold]
  dsimp only
  have hb : -1 < l.foldl (fun mm e => max mm (scoreEventHardness e)) (-1) := by
    have h1 := one_le_maxHardness l hne
    rw [maxHardness_def] at h1
    omega
  rw [if_pos hb, maxHardness_def]

theorem inferDayType_ne_rest (l : List WorkoutEvent) (hne : l ≠ []) :
    inferDayType l ≠ DayType.rest := by
  rw [inferDayType_eq_max l hne]
  exact hardnessToDayType_ne_rest _

/-- C8: the classification of a non-empty entry set is the label of the first
entry achieving the maximum hardness score in scan order (ties keep the
earlier entry), scores lie in 1..3 with 3 hard, 2 endurance, 1 recovery, an
empty set classifies as rest, and a non-empty set never classifies as rest. -/
theorem inferDayType_first_max_spec (l : List WorkoutEvent) :
    inferDayType l = specDayType l ∧
    (l = [] ∨ inferDayType l ≠ DayType.rest) ∧
    inferDayType [] = DayType.rest ∧
    hardnessToDayType 3 = DayType.hard ∧
    hardnessToDayType 2 = DayType.endurance ∧
    hardnessToDayType 1 = DayType.recovery ∧
    (∀ e : WorkoutEvent, 1 ≤ scoreEventHardness e ∧ scoreEventHardness e ≤ 3) := by
  have hmain : inferDayType l = specDayType l ∧ (l = [] ∨ inferDayType l ≠ DayType.rest) := by
    rcases eq_or_ne l [] with rfl | hne
    · exact ⟨rfl, Or.inl rfl⟩
    · have hatt := maxHardness_attained l hne
      have hfind : ∃ e, l.find? (fun e => scoreEventHardness e = maxHardness l) = some e := by
        have hs : (l.find? (fun e => scoreEventHardness e = maxHardness l)).isSome := by
          rw [List.find?_isSome]
          obtain ⟨e, he, hs⟩ := hatt
          exact ⟨e, he, by simpa using hs⟩
        exact Option.isSome_iff_exists.mp hs
      obtain ⟨e, hfe⟩ := hfind
      have hse : scoreEventHardness e = maxHardness l := by
        have := List.find?_some hfe
        simpa using this
      refine ⟨?_, Or.inr (inferDayType_ne_rest l hne)⟩
      rw [inferDayType_eq_max l hne]
      unfold specDayType
      rw [if_neg hne, hfe]
      dsimp only
      rw [hse]
  refine ⟨hmain.1, hmain.2, rfl, ?_, ?_, ?_, scoreEventHardness_bounds⟩
  · norm_num [hardnessToDayType]
  · norm_num [hardnessToDayType]
  · norm_num [hardnessToDayType]

/-! ### Claim C7: baseline precedence -/

/-- Spec-side actual-history baseline: average load of the most recent
max(7, floor(baseline_window_days)) entries of the date-sorted actual series,
times 7, rounded to one decimal. -/
def specActualBaseline (h : HistoryInputs) (cfg : GuardrailConfig) : ℚ :=
  let lastN := takeLastN (max 7 ⌊cfg.baseline_window_days⌋).toNat
    (sortActualsByDate h.actualDailyLoads)
  round1 ((lastN.map (fun x => x.2)).sum / (lastN.length : ℚ) * 7)

/-- Spec-side prior-planned-weeks baseline: average of the total loads of the
last two prior weeks (average of one if only one). -/
def specPriorBaseline (h : HistoryInputs) : ℚ :=
  let lastTwo := takeLastN 2 h.previousPlannedWeeks
  round1 ((lastTwo.map sumPlannedLoad).sum / (lastTwo.length : ℚ))

theorem takeLastN_length (n : Nat) (l : List α) :
    (takeLastN n l).length = l.length - (l.length - n) := by
  simp [takeLastN]

/-- C7: calcBaselineWeekly follows the three-source precedence: a non-empty
actual daily-load series wins and gives the windowed average times 7 rounded
to one decimal; otherwise non-empty prior planned weeks give the average of
the last two weekly totals; otherwise the fallback is returned, and inside
computeGuardrails with no history the baseline equals the week's own planned
load exactly. -/
theorem calcBaselineWeekly_precedence (h : HistoryInputs) (cfg : GuardrailConfig)
    (fb : ℚ) (w : WeekPlan) :
    calcBaselineWeekly h cfg fb =
      (if h.actualDailyLoads ≠ [] then specActualBaseline h cfg
       else if h.previousPlannedWeeks ≠ [] then specPriorBaseline h
       else round1 fb) ∧
    (computeGuardrails w ⟨[], []⟩ cfg).baselineWeeklyLoad =
      (computeGuardrails w ⟨[], []⟩ cfg).plannedWeekLoad := by
  constructor
  · rcases eq_or_ne h.actualDailyLoads [] with hact | hact
    · rcases eq_or_ne h.previousPlannedWeeks [] with hprev | hprev
      · simp [calcBaselineWeekly, hact, hprev]
      · simp [calcBaselineWeekly, specPriorBaseline, hact, hprev, foldl_add_self]
    · have hlen : (sortActualsByDate h.actualDailyLoads).length =
          h.actualDailyLoads.length := by
        unfold sortActualsByDate
        exact (List.perm_insertionSort _ _).length_eq
      have hpos : 1 ≤ (takeLastN (max 7 ⌊cfg.baseline_window_days⌋).toNat
          (sortActualsByDate h.actualDailyLoads)).length := by
        rw [takeLastN_length, hlen]
        have h1 : 1 ≤ h.actualDailyLoads.length := by
          rcases hne : h.actualDailyLoads with _ | ⟨x, xs⟩
          · exact absurd hne hact
          · simp
        have h7 : 7 ≤ (max 7 ⌊cfg.baseline_window_days⌋).toNat := by
          have hmx : (7 : ℤ) ≤ max 7 ⌊cfg.baseline_window_days⌋ := le_max_left _ _
          omega
        omega
      have hmaxq : max (1 : ℚ)
          ((takeLastN (max 7 ⌊cfg.baseline_window_days⌋).toNat
            (sortActualsByDate h.actualDailyLoads)).length : ℚ) =
          ((takeLastN (max 7 ⌊cfg.baseline_window_days⌋).toNat
            (sortActualsByDate h.actualDailyLoads)).length : ℚ) := by
        rw [max_eq_right]
        exact_mod_cast hpos
      simp only [calcBaselineWeekly, specActualBaseline]
      rw [if_pos hact, if_pos hact]
      rw [foldl_add_map (fun (x : Nat × ℚ) => x.2), hmaxq, zero_add]
  · unfold computeGuardrails
    simp only
    have hint : ∀ c ∈ (groupEventsByDate w).map (fun d => checkDay d cfg),
        ∃ k : ℤ, c.totalLoad = (k : ℚ) := by
      intro c hc
      obtain ⟨b, _, hb⟩ := List.mem_map.mp hc
      refine ⟨jround (sumLoads b.events), ?_⟩
      rw [← hb]
      rfl
    obtain ⟨K, hK⟩ := exists_int_foldl (fun (d : DailyCheck) => d.totalLoad)
      ((groupEventsByDate w).map (fun d => checkDay d cfg)) hint
    unfold calcBaselineWeekly
    simp only [ne_eq, not_true_eq_false, if_false, List.length_nil]
    rw [hK, round1_intCast]

/-! ### Claim C5: the Scaler's cap policy versus the Day Checker's -/

/-- C5 amended: with respectCaps on, the Scaler's binding cap for a bucket
equals checkDay's capApplied whenever the two long-ride hint vocabularies
agree on the bucket (same primary cap by day type, same recovery cap
min(endurance, 50), same long-ride min-combination); the two hint functions
are not the same predicate, so the hypothesis does not always hold. -/
theorem analyzeDay_cap_eq_checkDay (b : DayBucket) (cfg : GuardrailConfig)
    (opts : ScaleOptions) (hrc : opts.respectCaps = true)
    (hagree : hasLongRideHintG b.events = hasLongRideHintS b.events) :
    (analyzeDay b cfg opts).capApplied = (checkDay b cfg).capApplied := by
  simp only [analyzeDay, checkDay, hrc, if_true]
  rw [← hagree]
  cases hdt : inferDayType b.events <;> simp only [hdt]

/-- Event for the C5 counterexample: the description contains the substring
"lr" (inside the word "already"), which the guardrails hint matches but the
Scaler hint does not. -/
def c5Event : WorkoutEvent :=
  { external_id := "e1", startDate := 0, startTime := "T08:00",
    type := ActivityType.Ride, moving_time := 1000, icu_training_load := 10,
    description := "already" }

/-- Bucket for the C5 counterexample. -/
def c5Bucket : DayBucket := ⟨0, [c5Event]⟩

/-- Config for the C5 counterexample: long-ride cap below the endurance cap
so the binding caps differ when only one side applies the long-ride
override. -/
def c5Config : GuardrailConfig :=
  { ramp_warn_pct := 8, ramp_stop_pct := 12,
    daily_caps := { hard := 140, endurance := 90, long_ride := 80 },
    min_step := 2, baseline_window_days := 28 }

/-- Options with respectCaps on. -/
def c5Opts : ScaleOptions := ⟨0, 0, true, true⟩

/-- C5 counterexample: on a short, low-load endurance day whose description
is just "already", checkDay applies the long-ride override (binding cap
min(90, 80) = 80) while the Scaler's analyzeDay does not (binding cap 90):
the two cap policies disagree. -/
theorem capPolicy_hint_mismatch :
    (checkDay c5Bucket c5Config).capApplied = some 80 ∧
    (analyzeDay c5Bucket c5Config c5Opts).capApplied = some 90 := by
  have hs : scoreEventHardness c5Event = 2 := by
    simp only [scoreEventHardness, c5Event]
    norm_num [safeInt, jround]
    decide
  have hdt : inferDayType c5Bucket.events = DayType.endurance := by
    simp [c5Bucket, inferDayType, hs, hardnessToDayType]
  have hlrG : hasLongRideHintG c5Bucket.events = true := by decide
  have hlrS : hasLongRideHintS c5Bucket.events = false := by decide
  constructor
  · simp only [checkDay, hdt, hlrG]
    norm_num [sumLoads, sumMovingTime, safeInt, jround, c5Bucket, c5Event,
      c5Config, LONG_RIDE_TIME_THRESHOLD_SEC]
  · simp only [analyzeDay, hdt, hlrS, c5Opts]
    norm_num [sumLoads, sumMovingTime, safeInt, jround, c5Bucket, c5Event,
      c5Config, LONG_RIDE_TIME_THRESHOLD_SEC]

/-- Bucket on which the two long-ride hint vocabularies agree (empty
description), for the C5 witness. -/
def c5AgreeBucket : DayBucket :=
  ⟨0, [{ external_id := "e2", startDate := 0, startTime := "T08:00",
         type := ActivityType.Ride, moving_time := 1000, icu_training_load := 10,
         description := "" }]⟩

/-- Witness for the amended C5 theorem at a concrete bucket. -/
theorem analyzeDay_cap_eq_checkDay_witness :
    c5Opts.respectCaps = true ∧
    hasLongRideHintG c5AgreeBucket.events = hasLongRideHintS c5AgreeBucket.events ∧
    (analyzeDay c5AgreeBucket c5Config c5Opts).capApplied =
      (checkDay c5AgreeBucket c5Config).capApplied :=
  ⟨rfl, by decide, analyzeDay_cap_eq_checkDay c5AgreeBucket c5Config c5Opts rfl (by decide)⟩

/-! ### Claim C6: the long-ride override in checkDay -/

/-- Primary cap by day type (step 3 of the cap policy). -/
def primaryCapOf (t : DayType) (cfg : GuardrailConfig) : Option ℚ :=
  match t with
  | DayType.hard => some cfg.daily_caps.hard
  | DayType.endurance => some cfg.daily_caps.endurance
  | DayType.recovery => some (min cfg.daily_caps.endurance 50)
  | DayType.rest => none

/-- Event for the C6 example: a single 4-hour entry with load 200. -/
def c6Event : WorkoutEvent :=
  { external_id := "e6", startDate := 0, startTime := "T08:00",
    type := ActivityType.Ride, moving_time := 14400, icu_training_load := 200,
    description := "" }

/-- Bucket for the C6 example. -/
def c6Bucket : DayBucket := ⟨0, [c6Event]⟩

/-- C6 amended: on a long-ride day (total duration at least 3 hours or a
long-ride hint), checkDay records breach long_ride_cap exactly when the
total load exceeds caps.long_ride, and the binding cap is
min(primary cap, caps.long_ride), or caps.long_ride alone on a rest day;
on the spec's concrete example the day classifies hard (load 200 is at
least 100), so with the reference caps the binding cap is min(140, 180) =
140, the breaches are hard_cap and long_ride_cap, and overBy = 60. -/
theorem checkDay_long_ride_override (b : DayBucket) (cfg : GuardrailConfig)
    (hlr : LONG_RIDE_TIME_THRESHOLD_SEC ≤ sumMovingTime b.events ∨
      hasLongRideHintG b.events = true) :
    ((Breach.long_ride_cap ∈ (checkDay b cfg).breaches) ↔
      cfg.daily_caps.long_ride < sumLoads b.events) ∧
    (checkDay b cfg).capApplied =
      some (match primaryCapOf (inferDayType b.events) cfg with
            | none => cfg.daily_caps.long_ride
            | some p => min p cfg.daily_caps.long_ride) ∧
    checkDay c6Bucket DEFAULT_GUARDRAILS =
      { date := 0, totalLoad := 200, totalMovingTime := 14400,
        dayType := DayType.hard, capApplied := some 140, overBy := 60,
        breaches := [Breach.hard_cap, Breach.long_ride_cap] } := by
  have hb : (decide (LONG_RIDE_TIME_THRESHOLD_SEC ≤ sumMovingTime b.events) ||
      hasLongRideHintG b.events) = true := by
    rcases hlr with h | h
    · simp [h]
    · simp [h]
  have hex : checkDay c6Bucket DEFAULT_GUARDRAILS =
      { date := 0, totalLoad := 200, totalMovingTime := 14400,
        dayType := DayType.hard, capApplied := some 140, overBy := 60,
        breaches := [Breach.hard_cap, Breach.long_ride_cap] } := by
    have hs : scoreEventHardness c6Event = 3 := by
      simp only [scoreEventHardness, c6Event]
      norm_num [safeInt, jround]
    have hdt : inferDayType c6Bucket.events = DayType.hard := by
      simp [c6Bucket, inferDayType, hs, hardnessToDayType]
    have hlrG : hasLongRideHintG c6Bucket.events = false := by decide
    simp only [checkDay, hdt, hlrG]
    norm_num [sumLoads, sumMovingTime, safeInt, jround, c6Bucket, c6Event,
      DEFAULT_GUARDRAILS, LONG_RIDE_TIME_THRESHOLD_SEC, round0]
  refine ⟨?_, ?_, hex⟩
  · simp only [checkDay, hb, if_true]
    cases hdt : inferDayType b.events <;>
      simp only [hdt] <;> split_ifs <;> simp_all
  · simp only [checkDay, hb, if_true, primaryCapOf]
    cases hdt : inferDayType b.events <;> simp only [hdt]

/-- C6 counterexample: the spec's expected outputs for the concrete example
(binding cap 90, breaches including endurance_cap, overBy 110) do not match
the code, which classifies the load-200 day as hard. -/
theorem checkDay_spec_example_diverges :
    (checkDay c6Bucket DEFAULT_GUARDRAILS).capApplied = some 140 ∧
    (checkDay c6Bucket DEFAULT_GUARDRAILS).overBy = 60 ∧
    (checkDay c6Bucket DEFAULT_GUARDRAILS).breaches =
      [Breach.hard_cap, Breach.long_ride_cap] ∧
    ¬((checkDay c6Bucket DEFAULT_GUARDRAILS).capApplied = some 90 ∧
      (checkDay c6Bucket DEFAULT_GUARDRAILS).overBy = 110 ∧
      Breach.endurance_cap ∈ (checkDay c6Bucket DEFAULT_GUARDRAILS).breaches) := by
  have hs : scoreEventHardness c6Event = 3 := by
    simp only [scoreEventHardness, c6Event]
    norm_num [safeInt, jround]
  have hdt : inferDayType c6Bucket.events = DayType.hard := by
    simp [c6Bucket, inferDayType, hs, hardnessToDayType]
  have hlrG : hasLongRideHintG c6Bucket.events = false := by decide
  have hex : checkDay c6Bucket DEFAULT_GUARDRAILS =
      { date := 0, totalLoad := 200, totalMovingTime := 14400,
        dayType := DayType.hard, capApplied := some 140, overBy := 60,
        breaches := [Breach.hard_cap, Breach.long_ride_cap] } := by
    simp only [checkDay, hdt, hlrG]
    norm_num [sumLoads, sumMovingTime, safeInt, jround, c6Bucket, c6Event,
      DEFAULT_GUARDRAILS, LONG_RIDE_TIME_THRESHOLD_SEC, round0]
  rw [hex]
  refine ⟨rfl, rfl, rfl, ?_⟩
  rintro ⟨hcap, -, -⟩
  simp at hcap

/-- Witness for the amended C6 theorem at the concrete example bucket. -/
theorem checkDay_long_ride_override_witness :
    (LONG_RIDE_TIME_THRESHOLD_SEC ≤ sumMovingTime c6Bucket.events ∨
      hasLongRideHintG c6Bucket.events = true) ∧
    (((Breach.long_ride_cap ∈ (checkDay c6Bucket DEFAULT_GUARDRAILS).breaches) ↔
       DEFAULT_GUARDRAILS.daily_caps.long_ride < sumLoads c6Bucket.events) ∧
     (checkDay c6Bucket DEFAULT_GUARDRAILS).capApplied =
       some (match primaryCapOf (inferDayType c6Bucket.events) DEFAULT_GUARDRAILS with
             | none => DEFAULT_GUARDRAILS.daily_caps.long_ride
             | some p => min p DEFAULT_GUARDRAILS.daily_caps.long_ride) ∧
     checkDay c6Bucket DEFAULT_GUARDRAILS =
       { date := 0, totalLoad := 200, totalMovingTime := 14400,
         dayType := DayType.hard, capApplied := some 140, overBy := 60,
         breaches := [Breach.hard_cap, Breach.long_ride_cap] }) := by
  have hp : LONG_RIDE_TIME_THRESHOLD_SEC ≤ sumMovingTime c6Bucket.events ∨
      hasLongRideHintG c6Bucket.events = true := by
    left
    norm_num [LONG_RIDE_TIME_THRESHOLD_SEC, sumMovingTime, c6Bucket, c6Event]
  exact ⟨hp, checkDay_long_ride_override c6Bucket DEFAULT_GUARDRAILS hp⟩

/-! ### Claim C2: seven buckets per week -/

/-- The seven calendar dates of a week window. -/
def windowDates (ws : Nat) : List Nat := (List.range 7).map (fun i => ws + i)

theorem map_ext_on (f g : α → β) (l : List α) (h : ∀ a ∈ l, f a = g a) :
    l.map f = l.map g := by
  induction l with
  | nil => rfl
  | cons x xs ih =>
    simp only [List.map_cons]
    rw [h x (List.mem_cons_self x xs), ih (fun a ha => h a (List.mem_cons_of_mem x ha))]

theorem addAbsent_nodup (xs : List Nat) :
    ∀ acc : List Nat, acc.Nodup → (addAbsent acc xs).Nodup := by
  induction xs with
  | nil => exact fun acc h => h
  | cons d ds ih =>
    intro acc h
    simp only [addAbsent, List.foldl_cons]
    by_cases hd : d ∈ acc
    · rw [if_pos hd]
      exact ih acc h
    · rw [if_neg hd]
      refine ih _ ?_
      simp [List.nodup_append, h, hd]

theorem mem_addAbsent (xs : List Nat) :
    ∀ (acc : List Nat) (x : Nat), x ∈ addAbsent acc xs ↔ x ∈ acc ∨ x ∈ xs := by
  induction xs with
  | nil => intro acc x; simp [addAbsent]
  | cons d ds ih =>
    intro acc x
    simp only [addAbsent, List.foldl_cons]
    by_cases hd : d ∈ acc
    · rw [if_pos hd]
      refine (ih acc x).trans ?_
      simp only [List.mem_cons]
      constructor
      · rintro (h | h)
        · exact Or.inl h
        · exact Or.inr (Or.inr h)
      · rintro (h | h | h)
        · exact Or.inl h
        · exact Or.inl (h ▸ hd)
        · exact Or.inr h
    · rw [if_neg hd]
      refine (ih (acc ++ [d]) x).trans ?_
      simp only [List.mem_append, List.mem_cons, List.not_mem_nil, or_false]
      constructor
      · rintro ((h | h) | h)
        · exact Or.inl h
        · exact Or.inr (Or.inl h)
        · exact Or.inr (Or.inr h)
      · rintro (h | h | h)
        · exact Or.inl (Or.inl h)
        · exact Or.inl (Or.inr h)
        · exact Or.inr h

theorem map_date_orderedInsert (x : DayBucket) (l : List DayBucket) :
    (List.orderedInsert (fun a b : DayBucket => a.date ≤ b.date) x l).map
        (fun b => b.date) =
      List.orderedInsert (fun a b : Nat => a ≤ b) x.date (l.map (fun b => b.date)) := by
  induction l with
  | nil => rfl
  | cons y ys ih =>
    by_cases hxy : x.date ≤ y.date
    · simp [List.orderedInsert, hxy]
    · simp [List.orderedInsert, hxy, ih]

theorem map_date_insertionSort (l : List DayBucket) :
    (sortBucketsByDate l).map (fun b => b.date) =
      List.insertionSort (fun a b : Nat => a ≤ b) (l.map (fun b => b.date)) := by
  unfold sortBucketsByDate
  induction l with
  | nil => rfl
  | cons x xs ih =>
    simp only [List.insertionSort, List.map_cons]
    rw [map_date_orderedInsert, ih]

theorem windowDates_nodup (ws : Nat) : (windowDates ws).Nodup :=
  (List.nodup_range 7).map (fun a b h => by omega)

theorem windowDates_sorted (ws : Nat) :
    List.Sorted (fun a b : Nat => a ≤ b) (windowDates ws) := by
  unfold windowDates List.Sorted
  refine List.Pairwise.map _ ?_ (List.pairwise_lt_range 7)
  intro a b h
  omega

theorem mem_windowDates (ws d : Nat) :
    d ∈ windowDates ws ↔ ws ≤ d ∧ d < ws + 7 := by
  unfold windowDates
  simp only [List.mem_map, List.mem_range]
  constructor
  · rintro ⟨i, hi, rfl⟩
    omega
  · rintro ⟨h1, h2⟩
    exact ⟨d - ws, by omega, by omega⟩

theorem checkDay_empty (d : Nat) (cfg : GuardrailConfig) :
    (checkDay ⟨d, []⟩ cfg).dayType = DayType.rest ∧
    (checkDay ⟨d, []⟩ cfg).totalLoad = 0 ∧
    (checkDay ⟨d, []⟩ cfg).capApplied = none := by
  have h1 : hasLongRideHintG ([] : List WorkoutEvent) = false := by decide
  simp only [checkDay, h1]
  norm_num [inferDayType, sumLoads, sumMovingTime, LONG_RIDE_TIME_THRESHOLD_SEC,
    round0, jround]

theorem checkDay_date (b : DayBucket) (cfg : GuardrailConfig) :
    (checkDay b cfg).date = b.date := rfl

/-- C2 amended: when every entry of the Week lies inside the seven-day window
starting at week_start, computeGuardrails produces exactly seven DailyChecks,
one per window date in ascending order, a window date with no entries yields
a rest check with zero load, and plannedWeekLoad is the sum of the seven
totalLoads; without that restriction the code keeps out-of-window dates as
extra buckets, so plannedWeekLoad always equals the sum over all produced
DailyChecks rather than over seven. -/
theorem computeGuardrails_seven_days (w : WeekPlan) (h : HistoryInputs)
    (cfg : GuardrailConfig)
    (hin : ∀ e ∈ w.events, w.week_start ≤ e.startDate ∧ e.startDate < w.week_start + 7) :
    ((computeGuardrails w h cfg).daily.map (fun dc => dc.date)) =
      windowDates w.week_start ∧
    (computeGuardrails w h cfg).daily.length = 7 ∧
    (∀ dc ∈ (computeGuardrails w h cfg).daily,
      (∀ e ∈ w.events, e.startDate ≠ dc.date) →
        dc.dayType = DayType.rest ∧ dc.totalLoad = 0) ∧
    (computeGuardrails w h cfg).plannedWeekLoad =
      ((computeGuardrails w h cfg).daily.map (fun dc => dc.totalLoad)).sum := by
  have hwin : ((List.range 7).map (fun i => w.week_start + i)) =
      windowDates w.week_start := rfl
  have hks : ∀ x : Nat,
      x ∈ addAbsent (addAbsent [] (w.events.map (fun e => e.startDate)))
        ((List.range 7).map (fun i => w.week_start + i)) ↔
      x ∈ windowDates w.week_start := by
    intro x
    rw [mem_addAbsent, mem_addAbsent, hwin]
    constructor
    · rintro ((h | h) | h)
      · exact absurd h (List.not_mem_nil x)
      · obtain ⟨e, he, rfl⟩ := List.mem_map.mp h
        rw [mem_windowDates]
        exact hin e he
      · exact h
    · exact fun hw => Or.inr hw
  have hksnodup : (addAbsent (addAbsent [] (w.events.map (fun e => e.startDate)))
      ((List.range 7).map (fun i => w.week_start + i))).Nodup :=
    addAbsent_nodup _ _ (addAbsent_nodup _ _ List.nodup_nil)
  have hdates : ((computeGuardrails w h cfg).daily.map (fun dc => dc.date)) =
      windowDates w.week_start := by
    simp only [computeGuardrails, groupEventsByDate]
    rw [List.map_map]
    rw [map_ext_on ((fun (dc : DailyCheck) => dc.date) ∘ (fun d => checkDay d cfg))
      (fun (b : DayBucket) => b.date) _ (fun b _ => checkDay_date b cfg)]
    rw [map_date_insertionSort, List.map_map]
    rw [map_ext_on ((fun (b : DayBucket) => b.date) ∘
        (fun d => DayBucket.mk d (w.events.filter (fun e => e.startDate = d))))
      (fun (d : Nat) => d) _ (fun d _ => rfl)]
    rw [show (addAbsent (addAbsent [] (w.events.map (fun e => e.startDate)))
        ((List.range 7).map (fun i => w.week_start + i))).map (fun d => d) =
      (addAbsent (addAbsent [] (w.events.map (fun e => e.startDate)))
        ((List.range 7).map (fun i => w.week_start + i))) from List.map_id _]
    have hperm : (List.insertionSort (fun a b : Nat => a ≤ b)
        (addAbsent (addAbsent [] (w.events.map (fun e => e.startDate)))
          ((List.range 7).map (fun i => w.week_start + i)))).Perm
        (windowDates w.week_start) := by
      refine List.Perm.trans (List.perm_insertionSort _ _) ?_
      rw [List.perm_ext_iff_of_nodup hksnodup (windowDates_nodup w.week_start)]
      exact hks
    refine List.eq_of_perm_of_sorted hperm ?_ (windowDates_sorted w.week_start)
    exact List.sorted_insertionSort _ _
  refine ⟨hdates, ?_, ?_, ?_⟩
  · have hlen := congrArg List.length hdates
    simpa [windowDates] using hlen
  · intro dc hdc hnone
    simp only [computeGuardrails] at hdc
    obtain ⟨b, hb, rfl⟩ := List.mem_map.mp hdc
    have hb2 : b ∈ ((addAbsent (addAbsent [] (w.events.map (fun e => e.startDate)))
        ((List.range 7).map (fun i => w.week_start + i))).map
          (fun d => DayBucket.mk d (w.events.filter (fun e => e.startDate = d)))) := by
      have hp := List.perm_insertionSort
        (fun a b : DayBucket => a.date ≤ b.date)
        ((addAbsent (addAbsent [] (w.events.map (fun e => e.startDate)))
          ((List.range 7).map (fun i => w.week_start + i))).map
            (fun d => DayBucket.mk d (w.events.filter (fun e => e.startDate = d))))
      exact hp.mem_iff.mp hb
    obtain ⟨d, _, rfl⟩ := List.mem_map.mp hb2
    have hfil : w.events.filter (fun e => e.startDate = d) = [] := by
      rw [List.filter_eq_nil_iff]
      intro e he
      have hne := hnone e he
      simpa [checkDay_date] using hne
    have h3 := checkDay_empty d cfg
    rw [show (DayBucket.mk d (w.events.filter (fun e => e.startDate = d))) =
      (⟨d, []⟩ : DayBucket) from by rw [hfil]]
    exact ⟨h3.1, h3.2.1⟩
  · simp only [computeGuardrails]
    rw [foldl_add_map (fun (dc : DailyCheck) => dc.totalLoad), zero_add]

/-- Week for the C2 counterexample: week_start 100 with a single event dated
110, outside the seven-day window. -/
def c2Week : WeekPlan :=
  ⟨100, [{ external_id := "a", startDate := 110, startTime := "T08:00",
           type := ActivityType.Ride, moving_time := 3600,
           icu_training_load := 7, description := "" }]⟩

/-- C2 counterexample: a Week with an entry outside the window produces eight
DailyChecks, not seven. -/
theorem computeGuardrails_eight_buckets :
    (computeGuardrails c2Week ⟨[], []⟩ DEFAULT_GUARDRAILS).daily.length = 8 := by
  decide

/-- Week for the C2 witness: one in-window event. -/
def c2wWeek : WeekPlan :=
  ⟨100, [{ external_id := "a", startDate := 102, startTime := "T08:00",
           type := ActivityType.Ride, moving_time := 3600,
           icu_training_load := 7, description := "" }]⟩

/-- Witness for the amended C2 theorem at a concrete in-window week. -/
theorem computeGuardrails_seven_days_witness :
    (∀ e ∈ c2wWeek.events,
      c2wWeek.week_start ≤ e.startDate ∧ e.startDate < c2wWeek.week_start + 7) ∧
    ((computeGuardrails c2wWeek ⟨[], []⟩ DEFAULT_GUARDRAILS).daily.map
      (fun dc => dc.date)) = windowDates c2wWeek.week_start ∧
    (computeGuardrails c2wWeek ⟨[], []⟩ DEFAULT_GUARDRAILS).daily.length = 7 := by
  have hp : ∀ e ∈ c2wWeek.events,
      c2wWeek.week_start ≤ e.startDate ∧ e.startDate < c2wWeek.week_start + 7 := by
    decide
  have h := computeGuardrails_seven_days c2wWeek ⟨[], []⟩ DEFAULT_GUARDRAILS hp
  exact ⟨hp, h.1, h.2.1⟩

/-! ### Claim C1: totality of scaleWeekToTarget -/

theorem jsign_mul_abs (x : ℚ) : jsign x * |x| = x := by
  unfold jsign
  split_ifs with h1 h2
  · rw [abs_of_pos h1]; ring
  · rw [abs_of_neg h2]; ring
  · have hx : x = 0 := le_antisymm (not_lt.mp h1) (not_lt.mp h2)
    simp [hx]

theorem applyNudges_zero_drift (step : ℚ) (fuel : Nat) (evs : List WorkoutEvent) :
    applyNudges step fuel 0 evs = some evs := by
  rw [applyNudges.eq_def]
  simp

theorem applyNudges_some_of_one_le_step (step : ℚ) (hs : 1 ≤ step) :
    ∀ (fuel : Nat) (d : ℚ) (evs : List WorkoutEvent), (⌈|d|⌉).toNat < fuel →
      ∃ l', applyNudges step fuel d evs = some l' := by
  intro fuel
  induction fuel with
  | zero => intro d evs hf; omega
  | succ fuel ih =>
    intro d evs hf
    by_cases hd : d = 0
    · subst hd
      exact ⟨evs, applyNudges_zero_drift step (fuel + 1) evs⟩
    · simp only [applyNudges, if_neg hd]
      rcases le_or_lt |d| step with hle | hlt
      · have hinc : jsign d * min |d| step = d := by
          rw [min_eq_left hle, jsign_mul_abs]
        have hgoal : ∀ evs' : List WorkoutEvent,
            ∃ l', applyNudges step fuel (d - jsign d * min |d| step) evs' = some l' := by
          intro evs'
          rw [hinc, sub_self]
          exact ⟨evs', applyNudges_zero_drift step fuel evs'⟩
        exact hgoal _
      · have hinc : jsign d * min |d| step = jsign d * step := by
          rw [min_eq_right hlt.le]
        rw [hinc]
        have habs : |d - jsign d * step| = |d| - step := by
          rcases lt_trichotomy d 0 with hneg | hzero | hpos
          · have : jsign d = -1 := by unfold jsign; rw [if_neg (by linarith), if_pos hneg]
            rw [this, abs_of_neg hneg] at *
            rw [abs_of_neg (by linarith : d - (-1) * step < 0)]
            ring
          · exact absurd hzero hd
          · have : jsign d = 1 := by unfold jsign; rw [if_pos hpos]
            rw [this, abs_of_pos hpos] at *
            rw [abs_of_pos (by linarith : (0:ℚ) < d - 1 * step)]
            ring
        apply ih
        have h1 : (1:ℚ) ≤ |d| := le_trans hs hlt.le
        have hceil : ⌈|d - jsign d * step|⌉ ≤ ⌈|d|⌉ - 1 := by
          rw [habs]
          have : |d| - step ≤ |d| - 1 := by linarith
          calc ⌈|d| - step⌉ ≤ ⌈|d| - 1⌉ := Int.ceil_le_ceil this
            _ = ⌈|d|⌉ - 1 := by
                have h2 := Int.ceil_sub_int |d| (1 : ℤ)
                push_cast at h2
                exact h2
        have hpos' : (1:ℤ) ≤ ⌈|d|⌉ := by
          have : (1:ℚ) ≤ ⌈|d|⌉ := le_trans h1 (Int.le_ceil _)
          exact_mod_cast this
        omega

theorem distribute_some_of_one_le_step (events : List WorkoutEvent) (delta step : ℚ)
    (hs : 1 ≤ step) :
    ∃ l', distributeDeltaAcrossEvents events delta step = some l' := by
  unfold distributeDeltaAcrossEvents
  by_cases h0 : delta = 0
  · rw [if_pos h0]; exact ⟨_, rfl⟩
  · rw [if_neg h0]
    match events with
    | [] => exact ⟨_, rfl⟩
    | [e] => exact ⟨_, rfl⟩
    | e1 :: e2 :: rest =>
      apply applyNudges_some_of_one_le_step step hs
      unfold nudgeFuel
      omega

theorem applyDayDelta_some_of_one_le_step (d : DayInfo) (dd : ℚ)
    (cfg : GuardrailConfig) (opts : ScaleOptions) (hs : 1 ≤ cfg.min_step) :
    ∃ a, applyDayDelta d dd cfg opts = some a := by
  simp only [applyDayDelta]
  obtain ⟨l', hl'⟩ := distribute_some_of_one_le_step d.events _ cfg.min_step hs
  rw [hl']
  exact ⟨_, rfl⟩

theorem mapOpt_some_of_forall (f : α → Option β) (l : List α)
    (h : ∀ x ∈ l, ∃ y, f x = some y) :
    ∃ ys, mapOpt f l = some ys := by
  induction l with
  | nil => exact ⟨[], rfl⟩
  | cons x xs ih =>
    obtain ⟨y, hy⟩ := h x (List.mem_cons_self x xs)
    obtain ⟨ys, hys⟩ := ih (fun a ha => h a (List.mem_cons_of_mem x ha))
    exact ⟨y :: ys, by simp [mapOpt, hy, hys]⟩

/-- C1 amended: provided min_step is at least 1 (the data model's rounding
step is a positive integer; the reference default is 2), scaleWeekToTarget
always returns a ScaleResult, and on degenerate input (resolved target within
min_step of the current load, or no eligible day weight) the result is the
explicit no-op: afterLoad = beforeLoad, empty changes, the input week
unchanged. With min_step = 0 the source's drift loop never terminates (see
the counterexample), so the claim's quantification over every CapConfig
fails. -/
theorem scaleWeekToTarget_total (w : WeekPlan) (cfg : GuardrailConfig)
    (opts : ScaleOptions) (hs : 1 ≤ cfg.min_step) :
    ∃ r, scaleWeekToTarget w cfg opts = some r ∧
      ((|requestedTargetOf w cfg opts - beforeLoadOf w cfg opts| < cfg.min_step ∨
        sumWeightsOf w cfg opts ≤ 0) →
        r.beforeLoad = beforeLoadOf w cfg opts ∧
        r.afterLoad = beforeLoadOf w cfg opts ∧
        r.requestedTarget = requestedTargetOf w cfg opts ∧
        r.changes = [] ∧ r.week = w) := by
  simp only [scaleWeekToTarget]
  by_cases h1 : |requestedTargetOf w cfg opts - beforeLoadOf w cfg opts| < cfg.min_step
  · rw [if_pos h1]
    exact ⟨_, rfl, fun _ => ⟨rfl, rfl, rfl, rfl, rfl⟩⟩
  · rw [if_neg h1]
    by_cases h2 : sumWeightsOf w cfg opts ≤ 0
    · rw [if_pos h2]
      exact ⟨_, rfl, fun _ => ⟨rfl, rfl, rfl, rfl, rfl⟩⟩
    · rw [if_neg h2]
      obtain ⟨ys, hys⟩ := mapOpt_some_of_forall
        (fun d => applyDayDelta d
          (roundStep ((requestedTargetOf w cfg opts - beforeLoadOf w cfg opts) *
            (dayWeight d.dayType opts / sumWeightsOf w cfg opts)) cfg.min_step)
          cfg opts)
        (dayInfosOf w cfg opts)
        (fun d _ => applyDayDelta_some_of_one_le_step d _ cfg opts hs)
      rw [hys]
      refine ⟨_, rfl, fun hcon => ?_⟩
      rcases hcon with hc | hc
      · exact absurd hc h1
      · exact absurd hc h2

/-! ### Claim C1 counterexample and witness -/

/-- First event of the C1 counterexample week. -/
def c1e1 : WorkoutEvent :=
  { external_id := "a", startDate := 101, startTime := "T08:00",
    type := ActivityType.Ride, moving_time := 3600, icu_training_load := 1,
    description := "" }

/-- Second event of the C1 counterexample week. -/
def c1e2 : WorkoutEvent :=
  { external_id := "b", startDate := 101, startTime := "T08:00",
    type := ActivityType.Ride, moving_time := 3600, icu_training_load := 1,
    description := "" }

def c1Week : WeekPlan := ⟨100, [c1e1, c1e2]⟩

def c1Config : GuardrailConfig :=
  { ramp_warn_pct := 8, ramp_stop_pct := 12,
    daily_caps := { hard := 140, endurance := 90, long_ride := 180 },
    min_step := 0, baseline_window_days := 28 }

def c1Opts : ScaleOptions := ⟨5, 0, true, true⟩

/-- C1 counterexample: with min_step = 0 (an allowed CapConfig under the
claim's quantification) and a genuine scaling request, the drift loop of
distributeDeltaAcrossEvents computes inc = sign(drift) * min(abs drift, 0) =
0 forever, so the source never returns; in the fuel model scaleWeekToTarget
returns none, and no fuel amount ever suffices (the nudge amount is zero
while the drift stays at -1). -/
theorem scaleWeekToTarget_zero_step_diverges :
    scaleWeekToTarget c1Week c1Config c1Opts = (none : Option ScaleResult) := by
  have hs1 : scoreEventHardness c1e1 = 2 := by
    simp only [scoreEventHardness, c1e1]
    norm_num [safeInt, jround]
    decide
  have hs2 : scoreEventHardness c1e2 = 2 := by
    simp only [scoreEventHardness, c1e2]
    norm_num [safeInt, jround]
    decide
  have hdt : inferDayType [c1e1, c1e2] = DayType.endurance := by
    simp [inferDayType, hs1, hs2, hardnessToDayType]
  have hint : hasLongRideHintS [c1e1, c1e2] = false := by decide
  have hgroup : groupByDate c1Week = [⟨101, [c1e1, c1e2]⟩] := by
    simp [groupByDate, addAbsent, sortBucketsByDate, List.insertionSort,
      List.orderedInsert, c1Week, c1e1, c1e2]
  have hinfo : analyzeDay ⟨101, [c1e1, c1e2]⟩ c1Config c1Opts =
      ⟨101, [c1e1, c1e2], 2, 7200, DayType.endurance, some 90⟩ := by
    simp only [analyzeDay, hdt, hint, c1Opts]
    norm_num [sumLoads, sumMovingTime, safeInt, jround, c1e1, c1e2, c1Config,
      LONG_RIDE_TIME_THRESHOLD_SEC]
  have hinfos : dayInfosOf c1Week c1Config c1Opts =
      [⟨101, [c1e1, c1e2], 2, 7200, DayType.endurance, some 90⟩] := by
    rw [dayInfosOf, hgroup]
    simp [hinfo]
  have hbefore : beforeLoadOf c1Week c1Config c1Opts = 2 := by
    rw [beforeLoadOf, hinfos]
    norm_num
  have htarget : requestedTargetOf c1Week c1Config c1Opts = 5 := by
    rw [requestedTargetOf, hbefore]
    norm_num [resolveTarget, c1Opts, round0, jround]
  have hdw : dayWeight DayType.endurance c1Opts = 6/10 := by
    simp [dayWeight, c1Opts]
  have hsw : sumWeightsOf c1Week c1Config c1Opts = 6/10 := by
    rw [sumWeightsOf, hinfos]
    simp only [List.foldl_cons, List.foldl_nil, hdw]
    norm_num
  have hdwL : dayWeight DayType.endurance
      (⟨5, 0, true, true⟩ : ScaleOptions) = 6/10 := by
    simp [dayWeight]
  simp only [scaleWeekToTarget, hinfos, hbefore, htarget, hsw, hdw]
  norm_num [c1Config, mapOpt, applyDayDelta, distributeDeltaAcrossEvents,
    steppedShares, applyStepped, cloneEvent, clampLoad, indexOfMaxLoad,
    applyNudges, nudgeFuel, jsign, roundStep, jround, toInt, safeInt,
    sumLoads, c1Opts, c1e1, c1e2, hdwL]


/-- Witness for the amended C1 theorem at a concrete input. -/
theorem scaleWeekToTarget_total_witness :
    1 ≤ DEFAULT_GUARDRAILS.min_step ∧
    (∃ r, scaleWeekToTarget (⟨0, []⟩ : WeekPlan) DEFAULT_GUARDRAILS
        (⟨0, 0, true, true⟩ : ScaleOptions) = some r ∧
      ((|requestedTargetOf ⟨0, []⟩ DEFAULT_GUARDRAILS ⟨0, 0, true, true⟩ -
          beforeLoadOf ⟨0, []⟩ DEFAULT_GUARDRAILS ⟨0, 0, true, true⟩| <
          DEFAULT_GUARDRAILS.min_step ∨
        sumWeightsOf ⟨0, []⟩ DEFAULT_GUARDRAILS ⟨0, 0, true, true⟩ ≤ 0) →
        r.beforeLoad = beforeLoadOf ⟨0, []⟩ DEFAULT_GUARDRAILS ⟨0, 0, true, true⟩ ∧
        r.afterLoad = beforeLoadOf ⟨0, []⟩ DEFAULT_GUARDRAILS ⟨0, 0, true, true⟩ ∧
        r.requestedTarget = requestedTargetOf ⟨0, []⟩ DEFAULT_GUARDRAILS ⟨0, 0, true, true⟩ ∧
        r.changes = [] ∧ r.week = ⟨0, []⟩)) :=
  ⟨by norm_num [DEFAULT_GUARDRAILS],
   scaleWeekToTarget_total ⟨0, []⟩ DEFAULT_GUARDRAILS ⟨0, 0, true, true⟩
     (by norm_num [DEFAULT_GUARDRAILS])⟩

/-! ### Claim C10: frame of scaleWeekToTarget -/

/-- The event with its icu_training_load erased: all fields the Scaler must
leave unchanged. -/
def eventFrame (e : WorkoutEvent) : String × Nat × String × ActivityType × ℚ × String :=
  (e.external_id, e.startDate, e.startTime, e.type, e.moving_time, e.description)

theorem eventFrame_clampLoad (e : WorkoutEvent) :
    eventFrame (clampLoad e) = eventFrame e := by
  unfold clampLoad
  split_ifs <;> rfl

theorem map_frame_set (e' : WorkoutEvent) :
    ∀ (evs : List WorkoutEvent) (i : Nat) (e : WorkoutEvent), evs[i]? = some e →
      eventFrame e' = eventFrame e →
      (evs.set i e').map eventFrame = evs.map eventFrame := by
  intro evs
  induction evs with
  | nil => intro i e hg _; simp at hg
  | cons x xs ih =>
    intro i e hg hfr
    cases i with
    | zero =>
      simp only [List.getElem?_cons_zero, Option.some.injEq] at hg
      subst hg
      simp [List.set, hfr]
    | succ n =>
      simp only [List.getElem?_cons_succ] at hg
      simp [List.set, ih n e hg hfr]

theorem applyNudges_frames (step : ℚ) :
    ∀ (fuel : Nat) (d : ℚ) (evs l' : List WorkoutEvent),
      applyNudges step fuel d evs = some l' →
      l'.map eventFrame = evs.map eventFrame := by
  intro fuel
  induction fuel with
  | zero =>
    intro d evs l' h
    rw [applyNudges.eq_def] at h
    dsimp only at h
    by_cases hd : d = 0
    · rw [if_pos hd] at h
      obtain rfl := Option.some.inj h
      rfl
    · rw [if_neg hd] at h
      simp at h
  | succ fuel ih =>
    intro d evs l' h
    rw [applyNudges.eq_def] at h
    dsimp only at h
    by_cases hd : d = 0
    · rw [if_pos hd] at h
      obtain rfl := Option.some.inj h
      rfl
    · rw [if_neg hd] at h
      rcases hg : evs[indexOfMaxLoad evs]? with _ | e
      · rw [hg] at h
        exact ih _ _ _ h
      · rw [hg] at h
        have h2 := ih _ _ _ h
        rw [h2]
        exact map_frame_set _ evs (indexOfMaxLoad evs) e hg (eventFrame_clampLoad _)

theorem zip_map_frames (qs : List ℚ) :
    ∀ evs : List WorkoutEvent, evs.length = qs.length →
      (((evs.zip qs).map (fun p => clampLoad { p.1 with
          icu_training_load := (toInt (p.1.icu_training_load + p.2) : ℚ) })).map eventFrame) =
        evs.map eventFrame := by
  induction qs with
  | nil =>
    intro evs hl
    have h0 : evs = [] := List.length_eq_zero.mp hl
    subst h0
    rfl
  | cons q qs ih =>
    intro evs hl
    rcases evs with _ | ⟨e, evs⟩
    · simp at hl
    · simp only [List.zip_cons_cons, List.map_cons]
      rw [eventFrame_clampLoad]
      have h2 := ih evs (by simpa using hl)
      rw [h2]
      rfl

theorem map_frame_clone (evs : List WorkoutEvent) :
    ((evs.map cloneEvent).map eventFrame) = evs.map eventFrame := by
  rw [List.map_map]
  exact map_ext_on _ _ _ (fun e _ => rfl)

theorem steppedShares_length (events : List WorkoutEvent) (d s : ℚ) :
    (steppedShares events d s).length = events.length := by
  simp only [steppedShares]
  split_ifs <;> simp

theorem applyStepped_frames (events : List WorkoutEvent) (qs : List ℚ)
    (hl : qs.length = events.length) :
    (applyStepped events qs).map eventFrame = events.map eventFrame := by
  unfold applyStepped
  rw [zip_map_frames qs (events.map cloneEvent) (by simp [hl])]
  exact map_frame_clone events

theorem distribute_frames (events : List WorkoutEvent) (delta step : ℚ)
    (l' : List WorkoutEvent)
    (h : distributeDeltaAcrossEvents events delta step = some l') :
    l'.map eventFrame = events.map eventFrame := by
  unfold distributeDeltaAcrossEvents at h
  by_cases h0 : delta = 0
  · rw [if_pos h0] at h
    obtain rfl := Option.some.inj h
    exact map_frame_clone events
  · rw [if_neg h0] at h
    match events, h with
    | [], h =>
      obtain rfl := Option.some.inj h
      rfl
    | [e], h =>
      obtain rfl := Option.some.inj h
      simp only [List.map_cons, List.map_nil]
      rw [eventFrame_clampLoad]
      rfl
    | e1 :: e2 :: rest, h =>
      have hfr := applyNudges_frames step _ _ _ _ h
      rw [hfr]
      exact applyStepped_frames _ _ (steppedShares_length _ _ _)

theorem buckets_flatten_perm :
    ∀ (ks : List Nat) (l : List WorkoutEvent), ks.Nodup →
      (∀ e ∈ l, e.startDate ∈ ks) →
      ((ks.map (fun d => l.filter (fun e => e.startDate = d))).flatten).Perm l := by
  intro ks
  induction ks with
  | nil =>
    intro l _ hcov
    have h0 : l = [] := by
      cases l with
      | nil => rfl
      | cons e es => exact absurd (hcov e (by simp)) (List.not_mem_nil _)
    subst h0
    exact List.Perm.refl _
  | cons k ks ih =>
    intro l hnd hcov
    obtain ⟨hk, hnd'⟩ := List.nodup_cons.mp hnd
    simp only [List.map_cons, List.flatten_cons]
    have hmapeq : ks.map (fun d => l.filter (fun e => e.startDate = d)) =
        ks.map (fun d => (l.filter (fun e => !(e.startDate = k : Bool))).filter
          (fun e => e.startDate = d)) := by
      refine map_ext_on _ _ ks ?_
      intro d hd
      rw [List.filter_filter]
      refine (List.filter_congr ?_).symm
      intro e _
      by_cases he : e.startDate = d
      · have hdk : d ≠ k := fun hdk => hk (hdk ▸ hd)
        have hne : ¬ e.startDate = k := by rw [he]; exact hdk
        simp [he, hne, hdk]
      · simp [he]
    rw [hmapeq]
    have hcov' : ∀ e ∈ l.filter (fun e => !(e.startDate = k : Bool)), e.startDate ∈ ks := by
      intro e he
      obtain ⟨hel, hne⟩ := List.mem_filter.mp he
      have := hcov e hel
      simp only [List.mem_cons] at this
      rcases this with h | h
      · simp at hne
        exact absurd h hne
      · exact h
    have hperm2 := ih (l.filter (fun e => !(e.startDate = k : Bool))) hnd' hcov'
    exact (List.Perm.append_left (l.filter (fun e => e.startDate = k)) hperm2).trans
      (List.filter_append_perm _ l)

theorem groupByDate_flatten_perm (w : WeekPlan) :
    (((groupByDate w).map (fun b => b.events)).flatten).Perm w.events := by
  unfold groupByDate
  have hperm1 := List.perm_insertionSort
    (fun a b : DayBucket => a.date ≤ b.date)
    ((addAbsent [] (w.events.map (fun e => e.startDate))).map
      (fun d => DayBucket.mk d (w.events.filter (fun e => e.startDate = d))))
  refine List.Perm.trans (List.Perm.flatten (hperm1.map _)) ?_
  rw [List.map_map]
  rw [map_ext_on ((fun (b : DayBucket) => b.events) ∘
      (fun d => DayBucket.mk d (w.events.filter (fun e => e.startDate = d))))
    (fun d => w.events.filter (fun e => e.startDate = d)) _ (fun d _ => rfl)]
  exact buckets_flatten_perm _ _ (addAbsent_nodup _ _ List.nodup_nil)
    (fun e he => (mem_addAbsent _ _ _).2 (Or.inr (List.mem_map_of_mem _ he)))

theorem mapOpt_forall2 (f : α → Option β) :
    ∀ (l : List α) (ys : List β), mapOpt f l = some ys →
      List.Forall₂ (fun x y => f x = some y) l ys := by
  intro l
  induction l with
  | nil =>
    intro ys h
    obtain rfl := Option.some.inj h
    exact List.Forall₂.nil
  | cons x xs ih =>
    intro ys h
    unfold mapOpt at h
    rcases hfx : f x with _ | y
    · rw [hfx] at h; simp at h
    · rw [hfx] at h
      rcases hm : mapOpt f xs with _ | zs
      · rw [hm] at h; simp at h
      · rw [hm] at h
        simp only [Option.map_some', Option.some.injEq] at h
        subst h
        exact List.Forall₂.cons hfx (ih zs hm)

theorem applyDayDelta_frames (d : DayInfo) (dd : ℚ) (cfg : GuardrailConfig)
    (opts : ScaleOptions) (a : AppliedDay)
    (h : applyDayDelta d dd cfg opts = some a) :
    a.updatedEvents.map eventFrame = d.events.map eventFrame ∧ a.info = d := by
  simp only [applyDayDelta] at h
  rcases hdist : distributeDeltaAcrossEvents d.events
      (roundStep (match opts.respectCaps, d.capApplied with
        | true, some c => min (max 0 (d.totalLoad + dd)) c
        | _, _ => d.totalLoad + dd) cfg.min_step - d.totalLoad) cfg.min_step
    with _ | l'
  · rw [hdist] at h; simp at h
  · rw [hdist] at h
    simp only [Option.map_some', Option.some.injEq] at h
    subst h
    exact ⟨distribute_frames _ _ _ _ hdist, rfl⟩

theorem foldl_append_eq_flatten (f : α → List β) (l : List α) :
    ∀ acc : List β, l.foldl (fun acc a => acc ++ f a) acc = acc ++ (l.map f).flatten := by
  induction l with
  | nil => intro acc; simp
  | cons x xs ih => intro acc; simp [ih, List.append_assoc]

theorem forall2_map_eq (R : α → β → Prop) (f : α → γ) (g : β → γ)
    (h : ∀ x y, R x y → g y = f x) :
    ∀ (l : List α) (ys : List β), List.Forall₂ R l ys → ys.map g = l.map f := by
  intro l ys hf
  induction hf with
  | nil => rfl
  | cons hr _ ih => simp [h _ _ hr, ih]

/-- C10: whenever scaleWeekToTarget returns a result, the returned week keeps
the input week_start, has exactly as many events as the input, and the
multiset of events with the icu_training_load field erased is unchanged:
external_id, start date and time, type, moving_time and description are all
preserved, only training loads change. -/
theorem scaleWeekToTarget_frame (w : WeekPlan) (cfg : GuardrailConfig)
    (opts : ScaleOptions) (r : ScaleResult)
    (h : scaleWeekToTarget w cfg opts = some r) :
    r.week.week_start = w.week_start ∧
    (r.week.events.map eventFrame).Perm (w.events.map eventFrame) ∧
    r.week.events.length = w.events.length := by
  simp only [scaleWeekToTarget] at h
  by_cases h1 : |requestedTargetOf w cfg opts - beforeLoadOf w cfg opts| < cfg.min_step
  · rw [if_pos h1] at h
    obtain rfl := Option.some.inj h
    exact ⟨rfl, List.Perm.refl _, rfl⟩
  · rw [if_neg h1] at h
    by_cases h2 : sumWeightsOf w cfg opts ≤ 0
    · rw [if_pos h2] at h
      obtain rfl := Option.some.inj h
      exact ⟨rfl, List.Perm.refl _, rfl⟩
    · rw [if_neg h2] at h
      rcases hm : mapOpt (fun d => applyDayDelta d
          (roundStep ((requestedTargetOf w cfg opts - beforeLoadOf w cfg opts) *
            (dayWeight d.dayType opts / sumWeightsOf w cfg opts)) cfg.min_step)
          cfg opts) (dayInfosOf w cfg opts) with _ | ys
      · rw [hm] at h; simp at h
      · rw [hm] at h
        simp only [Option.map_some', Option.some.injEq] at h
        subst h
        have hf2 := mapOpt_forall2 _ _ _ hm
        have hweek : ∀ L : List AppliedDay,
            (L.foldl (fun acc a => acc ++ a.updatedEvents) []) =
              (L.map (fun a => a.updatedEvents)).flatten := by
          intro L
          rw [foldl_append_eq_flatten]
          rfl
        have hmapeq : (ys.map ((List.map eventFrame) ∘ (fun a => a.updatedEvents))) =
            ((dayInfosOf w cfg opts).map (fun d => d.events.map eventFrame)) := by
          refine forall2_map_eq _ _ _ ?_ _ _ hf2
          intro d a ha
          exact (applyDayDelta_frames _ _ _ _ _ ha).1
        have hinfomap : ((dayInfosOf w cfg opts).map (fun d => d.events.map eventFrame)) =
            ((groupByDate w).map (fun b => b.events.map eventFrame)) := by
          unfold dayInfosOf
          rw [List.map_map]
          exact map_ext_on _ _ _ (fun b _ => rfl)
        have hflat : (((ys.foldl (fun acc a => acc ++ a.updatedEvents) []).map
            eventFrame)).Perm (w.events.map eventFrame) := by
          rw [hweek ys, List.map_flatten, List.map_map, hmapeq, hinfomap]
          have hgp := (groupByDate_flatten_perm w).map eventFrame
          rw [List.map_flatten, List.map_map] at hgp
          exact hgp
        refine ⟨rfl, hflat, ?_⟩
        have hlen := hflat.length_eq
        simpa using hlen


/-- Witness for the C10 theorem at a concrete input (the no-op path of an
empty week). -/
theorem scaleWeekToTarget_frame_witness :
    (scaleWeekToTarget (⟨3, []⟩ : WeekPlan) DEFAULT_GUARDRAILS
      (⟨0, 0, true, true⟩ : ScaleOptions) = some (finalizeNoop ⟨3, []⟩ 0 0 0)) ∧
    ((finalizeNoop ⟨3, []⟩ 0 0 0).week.week_start = (⟨3, []⟩ : WeekPlan).week_start ∧
     (((finalizeNoop ⟨3, []⟩ 0 0 0).week.events.map eventFrame).Perm
       ((⟨3, []⟩ : WeekPlan).events.map eventFrame)) ∧
     (finalizeNoop ⟨3, []⟩ 0 0 0).week.events.length =
       (⟨3, []⟩ : WeekPlan).events.length) := by
  have hrun : scaleWeekToTarget (⟨3, []⟩ : WeekPlan) DEFAULT_GUARDRAILS
      (⟨0, 0, true, true⟩ : ScaleOptions) = some (finalizeNoop ⟨3, []⟩ 0 0 0) := by
    have hb : beforeLoadOf ⟨3, []⟩ DEFAULT_GUARDRAILS ⟨0, 0, true, true⟩ = 0 := by
      norm_num [beforeLoadOf, dayInfosOf, groupByDate, addAbsent,
        sortBucketsByDate, List.insertionSort]
    have ht : requestedTargetOf ⟨3, []⟩ DEFAULT_GUARDRAILS ⟨0, 0, true, true⟩ = 0 := by
      rw [requestedTargetOf, hb]
      norm_num [resolveTarget]
    simp only [scaleWeekToTarget, hb, ht]
    norm_num [DEFAULT_GUARDRAILS]
  exact ⟨hrun, scaleWeekToTarget_frame ⟨3, []⟩ DEFAULT_GUARDRAILS
    ⟨0, 0, true, true⟩ _ hrun⟩

/-! ### Claim C3: caps honoured and positive residual under cap-blocked targets -/
/-! C3 machinery -/

/-- Sum of the Scaler's per-day binding caps (0 for a day without one). -/
def capsSumOf (w : WeekPlan) (cfg : GuardrailConfig) (opts : ScaleOptions) : ℚ :=
  (dayInfosOf w cfg opts).foldl (fun s d => s + d.capApplied.getD 0) 0

theorem toInt_intCast (k : ℤ) : toInt (k : ℚ) = k := jround_intCast k

theorem sumLoads_single (e : WorkoutEvent) :
    sumLoads [e] = (safeInt e.icu_training_load : ℚ) := by
  simp [sumLoads]

theorem jround_nonneg (x : ℚ) (hx : 0 ≤ x) : 0 ≤ jround x := by
  unfold jround
  exact Int.floor_nonneg.mpr (by linarith)

theorem jround_mono (x y : ℚ) (h : x ≤ y) : jround x ≤ jround y :=
  Int.floor_le_floor (by linarith)

theorem roundStep_nonneg (x step : ℚ) (hx : 0 ≤ x) : 0 ≤ roundStep x step := by
  unfold roundStep
  split_ifs with h
  · exact_mod_cast jround_nonneg x hx
  · have hstep : (0:ℚ) < step := by linarith
    have h0 : 0 ≤ x / step := div_nonneg hx hstep.le
    have h2 : (0:ℤ) ≤ jround (x / step) := jround_nonneg _ h0
    have h3 : (0:ℚ) ≤ (jround (x / step) : ℚ) := by exact_mod_cast h2
    exact mul_nonneg h3 hstep.le

theorem roundStep_le_aligned (x c step : ℚ) (hxc : x ≤ c)
    (hal : roundStep c step = c) : roundStep x step ≤ c := by
  unfold roundStep at hal ⊢
  split_ifs at hal ⊢ with h
  · rw [← hal]
    exact_mod_cast jround_mono x c hxc
  · have hstep : (0:ℚ) < step := by linarith
    rw [← hal]
    have h1 : jround (x / step) ≤ jround (c / step) :=
      jround_mono _ _ (by gcongr)
    have h2 : ((jround (x / step)) : ℚ) ≤ ((jround (c / step)) : ℚ) := by exact_mod_cast h1
    exact mul_le_mul_of_nonneg_right h2 hstep.le

theorem roundStep_int_result (x : ℚ) (s : ℤ) (_h1 : 1 ≤ s) :
    ∃ t : ℤ, roundStep x (s : ℚ) = (t : ℚ) := by
  unfold roundStep
  split_ifs with h
  · exact ⟨jround x, rfl⟩
  · refine ⟨jround (x / (s : ℚ)) * s, ?_⟩
    push_cast
    ring

theorem safeInt_intCast (k : ℤ) : safeInt (k : ℚ) = k := jround_intCast k

theorem sumLoads_clamp_int (x : WorkoutEvent) (m : ℤ)
    (hm : x.icu_training_load = (m : ℚ)) :
    sumLoads [clampLoad x] = ((max 0 m : ℤ) : ℚ) := by
  unfold clampLoad
  split_ifs with h
  · have hm0 : m < 0 := by rw [hm] at h; exact_mod_cast h
    rw [sumLoads_single]
    have h0 : ({ x with icu_training_load := 0 } : WorkoutEvent).icu_training_load =
        ((0:ℤ) : ℚ) := by norm_num
    rw [h0, safeInt_intCast]
    have hmax : max 0 m = 0 := max_eq_left (by omega)
    rw [hmax]
  · have hm0 : (0:ℤ) ≤ m := by
      rw [hm] at h
      have h2 : (0:ℚ) ≤ (m:ℚ) := not_lt.mp h
      exact_mod_cast h2
    rw [sumLoads_single, hm, safeInt_intCast, max_eq_right hm0]

/-- For a single-entry day with an integer load, when caps are respected and
the binding cap is step-aligned and nonnegative, the day's new total never
exceeds the binding cap. -/
theorem applyDayDelta_single_cap (d : DayInfo) (dd : ℚ) (cfg : GuardrailConfig)
    (opts : ScaleOptions) (hrc : opts.respectCaps = true)
    (hstep : ∃ s : ℤ, cfg.min_step = (s : ℚ) ∧ 1 ≤ s)
    (hone : ∃ e k, d.events = [e] ∧ e.icu_training_load = ((k : ℤ) : ℚ))
    (htl : d.totalLoad = sumLoads d.events)
    (hc : ∀ c : ℚ, d.capApplied = some c → roundStep c cfg.min_step = c ∧ 0 ≤ c) :
    ∃ a, applyDayDelta d dd cfg opts = some a ∧
      (∀ c : ℚ, d.capApplied = some c → a.newTotal ≤ c) := by
  obtain ⟨s, hseq, hs1⟩ := hstep
  obtain ⟨e, k, hde, hek⟩ := hone
  have hsq : 1 ≤ cfg.min_step := by rw [hseq]; exact_mod_cast hs1
  have htlk : d.totalLoad = (k : ℚ) := by
    rw [htl, hde, sumLoads_single, hek, safeInt_intCast]
  cases hcap : d.capApplied with
  | none =>
    obtain ⟨a, ha⟩ := applyDayDelta_some_of_one_le_step d dd cfg opts hsq
    exact ⟨a, ha, fun c hcc => by simp [hcap] at hcc⟩
  | some c =>
    obtain ⟨hal, hc0⟩ := hc c hcap
    simp only [applyDayDelta, hrc, hcap]
    have hclamp_le : min (max 0 (d.totalLoad + dd)) c ≤ c := min_le_right _ _
    have hclamp_nonneg : 0 ≤ min (max 0 (d.totalLoad + dd)) c :=
      le_min (le_max_left _ _) hc0
    have htt_le : roundStep (min (max 0 (d.totalLoad + dd)) c) cfg.min_step ≤ c :=
      roundStep_le_aligned _ _ _ hclamp_le hal
    have htt_nonneg : 0 ≤ roundStep (min (max 0 (d.totalLoad + dd)) c) cfg.min_step :=
      roundStep_nonneg _ _ hclamp_nonneg
    obtain ⟨t, ht⟩ := by
      have := roundStep_int_result (min (max 0 (d.totalLoad + dd)) c) s hs1
      rwa [← hseq] at this
    rw [hde]
    by_cases hzero :
        roundStep (min (max 0 (d.totalLoad + dd)) c) cfg.min_step - d.totalLoad = 0
    · have hdist : distributeDeltaAcrossEvents [e]
          (roundStep (min (max 0 (d.totalLoad + dd)) c) cfg.min_step - d.totalLoad)
          cfg.min_step = some [cloneEvent e] := by
        unfold distributeDeltaAcrossEvents
        rw [if_pos hzero]
        rfl
      rw [hdist]
      refine ⟨_, rfl, ?_⟩
      intro c' hcc'
      obtain rfl : c = c' := Option.some.inj hcc'
      show sumLoads [cloneEvent e] ≤ c
      have hclone : (cloneEvent e).icu_training_load = (k : ℚ) := by
        show ((toInt e.icu_training_load : ℤ) : ℚ) = (k : ℚ)
        rw [hek, toInt_intCast]
      rw [sumLoads_single, hclone, safeInt_intCast]
      have hkT : (k : ℚ) = roundStep (min (max 0 (d.totalLoad + dd)) c) cfg.min_step := by
        rw [← htlk]
        linarith
      rw [hkT]
      exact htt_le
    · have hdist : distributeDeltaAcrossEvents [e]
          (roundStep (min (max 0 (d.totalLoad + dd)) c) cfg.min_step - d.totalLoad)
          cfg.min_step =
          some [clampLoad { cloneEvent e with icu_training_load :=
            (toInt ((cloneEvent e).icu_training_load +
              (roundStep (min (max 0 (d.totalLoad + dd)) c) cfg.min_step -
                d.totalLoad)) : ℚ) }] := by
        unfold distributeDeltaAcrossEvents
        rw [if_neg hzero]
      rw [hdist]
      refine ⟨_, rfl, ?_⟩
      intro c' hcc'
      obtain rfl : c = c' := Option.some.inj hcc'
      show sumLoads [clampLoad _] ≤ c
      have hclone : (cloneEvent e).icu_training_load = (k : ℚ) := by
        show ((toInt e.icu_training_load : ℤ) : ℚ) = (k : ℚ)
        rw [hek, toInt_intCast]
      have hins : (cloneEvent e).icu_training_load +
          (roundStep (min (max 0 (d.totalLoad + dd)) c) cfg.min_step - d.totalLoad) =
          (t : ℚ) := by
        rw [hclone, ← ht, ← htlk]
        ring
      have hm : ({ cloneEvent e with icu_training_load :=
          (toInt ((cloneEvent e).icu_training_load +
            (roundStep (min (max 0 (d.totalLoad + dd)) c) cfg.min_step -
              d.totalLoad)) : ℚ) } : WorkoutEvent).icu_training_load = ((t : ℤ) : ℚ) := by
        show ((toInt ((cloneEvent e).icu_training_load +
          (roundStep (min (max 0 (d.totalLoad + dd)) c) cfg.min_step -
            d.totalLoad)) : ℤ) : ℚ) = ((t : ℤ) : ℚ)
        rw [hins, toInt_intCast]
      rw [sumLoads_clamp_int _ t hm]
      have ht0 : (0:ℤ) ≤ t := by
        have : (0:ℚ) ≤ (t:ℚ) := by rw [← ht]; exact htt_nonneg
        exact_mod_cast this
      rw [max_eq_right ht0]
      rw [← ht]
      exact htt_le

theorem groupByDate_mem_structure (w : WeekPlan) (b : DayBucket)
    (hb : b ∈ groupByDate w) :
    b.events = w.events.filter (fun e => e.startDate = b.date) ∧ b.events ≠ [] := by
  unfold groupByDate at hb
  have hb2 := (List.perm_insertionSort
    (fun a b : DayBucket => a.date ≤ b.date) _).mem_iff.mp hb
  obtain ⟨d, hd, rfl⟩ := List.mem_map.mp hb2
  refine ⟨rfl, ?_⟩
  have hdm : d ∈ w.events.map (fun e => e.startDate) := by
    have := (mem_addAbsent _ _ _).mp hd
    rcases this with h | h
    · exact absurd h (List.not_mem_nil d)
    · exact h
  obtain ⟨e, he, hde⟩ := List.mem_map.mp hdm
  intro hnil
  have : e ∈ w.events.filter (fun e => e.startDate = d) :=
    List.mem_filter.mpr ⟨he, by simp [hde]⟩
  rw [show (DayBucket.mk d (w.events.filter (fun e => e.startDate = d))).events =
    w.events.filter (fun e => e.startDate = d) from rfl] at hnil
  rw [hnil] at this
  exact List.not_mem_nil e this

theorem analyzeDay_cap_isSome (b : DayBucket) (cfg : GuardrailConfig)
    (opts : ScaleOptions) (hrc : opts.respectCaps = true) (hne : b.events ≠ []) :
    ∃ c : ℚ, (analyzeDay b cfg opts).capApplied = some c := by
  have hrest := inferDayType_ne_rest b.events hne
  simp only [analyzeDay, hrc, if_true]
  cases hdt : inferDayType b.events with
  | rest => exact absurd hdt hrest
  | hard => split_ifs <;> exact ⟨_, rfl⟩
  | endurance => split_ifs <;> exact ⟨_, rfl⟩
  | recovery => split_ifs <;> exact ⟨_, rfl⟩

theorem forall2_mem_right (R : α → β → Prop) :
    ∀ {l : List α} {ys : List β}, List.Forall₂ R l ys → ∀ y ∈ ys, ∃ x ∈ l, R x y := by
  intro l ys hf
  induction hf with
  | nil => intro y hy; cases hy
  | cons hr _ ih =>
    intro y hy
    rcases List.mem_cons.mp hy with rfl | hy'
    · exact ⟨_, List.mem_cons_self _ _, hr⟩
    · obtain ⟨x, hx, hxr⟩ := ih y hy'
      exact ⟨x, List.mem_cons_of_mem _ hx, hxr⟩

theorem forall2_strengthen_mem (R : α → β → Prop) (L : List α) :
    ∀ {l : List α} {ys : List β}, List.Forall₂ R l ys → (∀ x ∈ l, x ∈ L) →
      List.Forall₂ (fun x y => x ∈ L ∧ R x y) l ys := by
  intro l ys hf
  induction hf with
  | nil => intro _; exact List.Forall₂.nil
  | cons hr _ ih =>
    intro hsub
    exact List.Forall₂.cons ⟨hsub _ (List.mem_cons_self _ _), hr⟩
      (ih (fun x hx => hsub x (List.mem_cons_of_mem _ hx)))

theorem forall2_sum_le (R : α → β → Prop) (f : α → ℚ) (g : β → ℚ)
    (h : ∀ x y, R x y → g y ≤ f x) :
    ∀ {l : List α} {ys : List β}, List.Forall₂ R l ys →
      (ys.map g).sum ≤ (l.map f).sum := by
  intro l ys hf
  induction hf with
  | nil => simp
  | cons hr _ ih =>
    simp only [List.map_cons, List.sum_cons]
    exact add_le_add (h _ _ hr) ih

/-- C3 amended: with respectCaps on, an integer min_step of at least 1,
step-aligned nonnegative binding caps, integer nonnegative loads and one
entry per scheduled day, scaleWeekToTarget returns a result in which no
reported day exceeds its binding cap, and whenever the resolved target
exceeds the sum of the binding caps (a cap-blocked target) while a genuine
scaling pass runs, the residual is strictly positive. Without the
single-entry restriction the zero-floor of the per-event drift loop can push
a day's total above its cap (see the counterexample). -/
theorem scaleWeekToTarget_caps (w : WeekPlan) (cfg : GuardrailConfig)
    (opts : ScaleOptions) (hrc : opts.respectCaps = true)
    (hstep : ∃ s : ℤ, cfg.min_step = (s : ℚ) ∧ 1 ≤ s)
    (hsingle : ∀ b ∈ groupByDate w, b.events.length = 1)
    (hloads : ∀ e ∈ w.events, ∃ k : ℤ, e.icu_training_load = (k : ℚ) ∧ 0 ≤ k)
    (hcaps : ∀ d ∈ dayInfosOf w cfg opts, ∀ c : ℚ, d.capApplied = some c →
      roundStep c cfg.min_step = c ∧ 0 ≤ c) :
    ∃ r, scaleWeekToTarget w cfg opts = some r ∧
      (∀ ch ∈ r.changes, ∀ c : ℚ, ch.capApplied = some c → ch.after ≤ c) ∧
      ((capsSumOf w cfg opts < requestedTargetOf w cfg opts ∧
        cfg.min_step ≤ |requestedTargetOf w cfg opts - beforeLoadOf w cfg opts| ∧
        0 < sumWeightsOf w cfg opts) → 0 < r.residual) := by
  have hsq : 1 ≤ cfg.min_step := by
    obtain ⟨s, hseq, hs1⟩ := hstep
    rw [hseq]
    exact_mod_cast hs1
  have hday : ∀ d ∈ dayInfosOf w cfg opts, ∀ dd : ℚ, ∀ a : AppliedDay,
      applyDayDelta d dd cfg opts = some a →
      (∀ c : ℚ, d.capApplied = some c → a.newTotal ≤ c) := by
    intro d hd dd a ha
    obtain ⟨b, hb, rfl⟩ := List.mem_map.mp hd
    obtain ⟨hbev, hbne⟩ := groupByDate_mem_structure w b hb
    have h1 := hsingle b hb
    obtain ⟨e, he⟩ := List.length_eq_one.mp h1
    have hmem : e ∈ w.events := by
      have : e ∈ b.events := by rw [he]; exact List.mem_cons_self e []
      rw [hbev] at this
      exact (List.mem_filter.mp this).1
    obtain ⟨k, hk, _⟩ := hloads e hmem
    obtain ⟨a', ha', hP⟩ := applyDayDelta_single_cap (analyzeDay b cfg opts) dd cfg opts
      hrc hstep ⟨e, k, by rw [show (analyzeDay b cfg opts).events = b.events from rfl, he], hk⟩
      rfl (hcaps _ hd)
    obtain rfl : a' = a := Option.some.inj (ha'.symm.trans ha)
    exact hP
  simp only [scaleWeekToTarget]
  by_cases h1 : |requestedTargetOf w cfg opts - beforeLoadOf w cfg opts| < cfg.min_step
  · rw [if_pos h1]
    refine ⟨_, rfl, ?_, ?_⟩
    · intro ch hch
      simp [finalizeNoop] at hch
    · rintro ⟨-, hstep2, -⟩
      exact absurd h1 (not_lt.mpr hstep2)
  · rw [if_neg h1]
    by_cases h2 : sumWeightsOf w cfg opts ≤ 0
    · rw [if_pos h2]
      refine ⟨_, rfl, ?_, ?_⟩
      · intro ch hch
        simp [finalizeNoop] at hch
      · rintro ⟨-, -, hsw⟩
        exact absurd h2 (not_le.mpr hsw)
    · rw [if_neg h2]
      obtain ⟨ys, hys⟩ := mapOpt_some_of_forall
        (fun d => applyDayDelta d
          (roundStep ((requestedTargetOf w cfg opts - beforeLoadOf w cfg opts) *
            (dayWeight d.dayType opts / sumWeightsOf w cfg opts)) cfg.min_step)
          cfg opts)
        (dayInfosOf w cfg opts)
        (fun d _ => applyDayDelta_some_of_one_le_step d _ cfg opts hsq)
      rw [hys]
      have hf2 := mapOpt_forall2 _ _ _ hys
      have hf2m := forall2_strengthen_mem _ (dayInfosOf w cfg opts) hf2 (fun x hx => hx)
      refine ⟨_, rfl, ?_, ?_⟩
      · show ∀ ch ∈ ys.map (fun a => DayChange.mk a.info.date a.info.totalLoad a.newTotal
          (a.newTotal - a.info.totalLoad) a.info.capApplied), ∀ c : ℚ,
            ch.capApplied = some c → ch.after ≤ c
        intro ch hch c hc'
        obtain ⟨a, ha, rfl⟩ := List.mem_map.mp hch
        obtain ⟨d, hd, hda⟩ := forall2_mem_right _ hf2 a ha
        have hinfo := (applyDayDelta_frames _ _ _ _ _ hda).2
        have hcap' : d.capApplied = some c := by
          rw [hinfo] at hc'
          exact hc'
        exact hday d hd _ a hda c hcap'
      · rintro ⟨hts, -, -⟩
        show 0 < requestedTargetOf w cfg opts -
          (ys.map (fun a => DayChange.mk a.info.date a.info.totalLoad a.newTotal
            (a.newTotal - a.info.totalLoad) a.info.capApplied)).foldl
            (fun s c => s + c.after) 0
        have hbound : ((ys.map (fun a => a.newTotal)).sum) ≤
            (((dayInfosOf w cfg opts).map (fun d => d.capApplied.getD 0)).sum) := by
          refine forall2_sum_le _ _ _ ?_ hf2m
          rintro d a ⟨hd, hda⟩
          obtain ⟨b, hb, hdb⟩ := List.mem_map.mp hd
          obtain ⟨-, hbne⟩ := groupByDate_mem_structure w b hb
          obtain ⟨c, hcap⟩ := by
            have := analyzeDay_cap_isSome b cfg opts hrc hbne
            rwa [hdb] at this
          rw [hcap]
          simp only [Option.getD_some]
          exact hday d hd _ a hda c hcap
        have hafter : ((ys.map (fun a => DayChange.mk a.info.date a.info.totalLoad a.newTotal
            (a.newTotal - a.info.totalLoad) a.info.capApplied)).foldl
            (fun s c => s + c.after) 0) = (ys.map (fun a => a.newTotal)).sum := by
          rw [foldl_add_map (fun (c : DayChange) => c.after), zero_add, List.map_map]
          rfl
        have hcs : capsSumOf w cfg opts =
            (((dayInfosOf w cfg opts).map (fun d => d.capApplied.getD 0)).sum) := by
          unfold capsSumOf
          rw [foldl_add_map (fun (d : DayInfo) => d.capApplied.getD 0), zero_add]
        rw [hafter]
        rw [hcs] at hts
        linarith

/-- Event for the C3 counterexample: load 1 on day 103. -/
def c3xE1 : WorkoutEvent :=
  { external_id := "a", startDate := 103, startTime := "T08:00",
    type := ActivityType.Ride, moving_time := 1000, icu_training_load := 1,
    description := "" }

def c3xE2 : WorkoutEvent := { c3xE1 with external_id := "b" }

def c3xE3 : WorkoutEvent := { c3xE1 with external_id := "c" }

def c3xE4 : WorkoutEvent := { c3xE1 with external_id := "d" }

/-- Week for the C3 counterexample: four load-1 events on one day. -/
def c3xWeek : WeekPlan := ⟨100, [c3xE1, c3xE2, c3xE3, c3xE4]⟩

/-- Config for the C3 counterexample: endurance cap 2, min_step 2. -/
def c3xConfig : GuardrailConfig :=
  { ramp_warn_pct := 8, ramp_stop_pct := 12,
    daily_caps := { hard := 140, endurance := 2, long_ride := 180 },
    min_step := 2, baseline_window_days := 28 }

/-- Options for the C3 counterexample: absolute target 2, caps respected. -/
def c3xOpts : ScaleOptions :=
  { targetWeeklyLoad := 2, scalePct := 0, lockRestDays := true, respectCaps := true }

/-- C3 counterexample: scaling four load-1 events (day total 4, endurance cap
2) down to target 2 with min_step 2 rounds every per-event share to 0, and
the drift loop then pushes the whole -2 onto the first event, whose load
floors at 0 while the drift is still marked absorbed; the day ends at total
3, strictly above its binding cap 2, and the residual is -1, not positive.
So a day's after value can exceed its non-null cap. -/
theorem scaleWeekToTarget_cap_exceeded :
    (scaleWeekToTarget c3xWeek c3xConfig c3xOpts).map
      (fun r => (r.afterLoad, r.residual,
        r.changes.map (fun c => (c.after, c.capApplied)))) =
      some ((3 : ℚ), (-1 : ℚ), [((3 : ℚ), some (2 : ℚ))]) := by
  have hs1 : scoreEventHardness c3xE1 = 2 := by
    simp only [scoreEventHardness, c3xE1]
    norm_num [safeInt, jround]
    decide
  have hs2 : scoreEventHardness c3xE2 = 2 := by
    simp only [scoreEventHardness, c3xE2, c3xE1]
    norm_num [safeInt, jround]
    decide
  have hs3 : scoreEventHardness c3xE3 = 2 := by
    simp only [scoreEventHardness, c3xE3, c3xE1]
    norm_num [safeInt, jround]
    decide
  have hs4 : scoreEventHardness c3xE4 = 2 := by
    simp only [scoreEventHardness, c3xE4, c3xE1]
    norm_num [safeInt, jround]
    decide
  have hdt : inferDayType [c3xE1, c3xE2, c3xE3, c3xE4] = DayType.endurance := by
    simp [inferDayType, hs1, hs2, hs3, hs4, hardnessToDayType]
  have hint : hasLongRideHintS [c3xE1, c3xE2, c3xE3, c3xE4] = false := by decide
  have hgroup : groupByDate c3xWeek = [⟨103, [c3xE1, c3xE2, c3xE3, c3xE4]⟩] := by
    simp [groupByDate, addAbsent, sortBucketsByDate, List.insertionSort,
      List.orderedInsert, c3xWeek, c3xE1, c3xE2, c3xE3, c3xE4]
  have hinfo : analyzeDay ⟨103, [c3xE1, c3xE2, c3xE3, c3xE4]⟩ c3xConfig c3xOpts =
      ⟨103, [c3xE1, c3xE2, c3xE3, c3xE4], 4, 4000, DayType.endurance, some 2⟩ := by
    simp only [analyzeDay, hdt, hint, c3xOpts]
    norm_num [sumLoads, sumMovingTime, safeInt, jround, c3xE1, c3xE2, c3xE3, c3xE4,
      c3xConfig, LONG_RIDE_TIME_THRESHOLD_SEC]
  have hinfos : dayInfosOf c3xWeek c3xConfig c3xOpts =
      [⟨103, [c3xE1, c3xE2, c3xE3, c3xE4], 4, 4000, DayType.endurance, some 2⟩] := by
    rw [dayInfosOf, hgroup]
    simp [hinfo]
  have hbefore : beforeLoadOf c3xWeek c3xConfig c3xOpts = 4 := by
    rw [beforeLoadOf, hinfos]
    norm_num
  have htarget : requestedTargetOf c3xWeek c3xConfig c3xOpts = 2 := by
    rw [requestedTargetOf, hbefore]
    norm_num [resolveTarget, c3xOpts, round0, jround]
  have hdw : dayWeight DayType.endurance c3xOpts = 6/10 := by
    simp [dayWeight, c3xOpts]
  have hsw : sumWeightsOf c3xWeek c3xConfig c3xOpts = 6/10 := by
    rw [sumWeightsOf, hinfos]
    simp only [List.foldl_cons, List.foldl_nil, hdw]
    norm_num
  have hdwL : dayWeight DayType.endurance
      (⟨2, 0, true, true⟩ : ScaleOptions) = 6/10 := by
    simp [dayWeight]
  simp only [scaleWeekToTarget, hinfos, hbefore, htarget, hsw, hdw]
  norm_num [c3xConfig, mapOpt, applyDayDelta, distributeDeltaAcrossEvents,
    steppedShares, applyStepped, cloneEvent, clampLoad, indexOfMaxLoad,
    applyNudges, nudgeFuel, jsign, roundStep, jround, toInt, safeInt,
    sumLoads, c3xOpts, c3xE1, c3xE2, c3xE3, c3xE4, hdwL]

/-- Event for the C3 witness: a single endurance ride, load 85. -/
def c3wE : WorkoutEvent :=
  { external_id := "a", startDate := 102, startTime := "T08:00",
    type := ActivityType.Ride, moving_time := 3600, icu_training_load := 85,
    description := "" }

/-- Week for the C3 witness. -/
def c3wWk : WeekPlan := ⟨100, [c3wE]⟩

/-- Options for the C3 witness: absolute target 135, caps respected. -/
def c3wOpts : ScaleOptions :=
  { targetWeeklyLoad := 135, scalePct := 0, lockRestDays := true, respectCaps := true }

/-- Witness for the amended C3 theorem at a concrete input: one load-85
endurance day scaled toward 135 under the default caps (endurance 90,
min_step 2). -/
theorem scaleWeekToTarget_caps_witness :
    (c3wOpts.respectCaps = true) ∧
    (∃ s : ℤ, DEFAULT_GUARDRAILS.min_step = (s : ℚ) ∧ 1 ≤ s) ∧
    (∀ b ∈ groupByDate c3wWk, b.events.length = 1) ∧
    (∀ e ∈ c3wWk.events, ∃ k : ℤ, e.icu_training_load = (k : ℚ) ∧ 0 ≤ k) ∧
    (∀ d ∈ dayInfosOf c3wWk DEFAULT_GUARDRAILS c3wOpts, ∀ c : ℚ,
      d.capApplied = some c → roundStep c DEFAULT_GUARDRAILS.min_step = c ∧ 0 ≤ c) ∧
    (∃ r, scaleWeekToTarget c3wWk DEFAULT_GUARDRAILS c3wOpts = some r ∧
      (∀ ch ∈ r.changes, ∀ c : ℚ, ch.capApplied = some c → ch.after ≤ c) ∧
      ((capsSumOf c3wWk DEFAULT_GUARDRAILS c3wOpts <
          requestedTargetOf c3wWk DEFAULT_GUARDRAILS c3wOpts ∧
        DEFAULT_GUARDRAILS.min_step ≤
          |requestedTargetOf c3wWk DEFAULT_GUARDRAILS c3wOpts -
            beforeLoadOf c3wWk DEFAULT_GUARDRAILS c3wOpts| ∧
        0 < sumWeightsOf c3wWk DEFAULT_GUARDRAILS c3wOpts) → 0 < r.residual)) := by
  have h1 : c3wOpts.respectCaps = true := rfl
  have h2 : ∃ s : ℤ, DEFAULT_GUARDRAILS.min_step = (s : ℚ) ∧ 1 ≤ s :=
    ⟨2, by norm_num [DEFAULT_GUARDRAILS], by norm_num⟩
  have h3 : ∀ b ∈ groupByDate c3wWk, b.events.length = 1 := by decide
  have h4 : ∀ e ∈ c3wWk.events, ∃ k : ℤ, e.icu_training_load = (k : ℚ) ∧ 0 ≤ k := by
    intro e he
    simp only [c3wWk, List.mem_cons, List.not_mem_nil, or_false] at he
    subst he
    exact ⟨85, by norm_num [c3wE], by norm_num⟩
  have h5 : ∀ d ∈ dayInfosOf c3wWk DEFAULT_GUARDRAILS c3wOpts, ∀ c : ℚ,
      d.capApplied = some c → roundStep c DEFAULT_GUARDRAILS.min_step = c ∧ 0 ≤ c := by
    have hs1 : scoreEventHardness c3wE = 2 := by
      simp only [scoreEventHardness, c3wE]
      norm_num [safeInt, jround]
      decide
    have hdt : inferDayType [c3wE] = DayType.endurance := by
      simp [inferDayType, hs1, hardnessToDayType]
    have hint : hasLongRideHintS [c3wE] = false := by decide
    have hgroup : groupByDate c3wWk = [⟨102, [c3wE]⟩] := by
      simp [groupByDate, addAbsent, sortBucketsByDate, List.insertionSort,
        List.orderedInsert, c3wWk, c3wE]
    have hinfo : analyzeDay ⟨102, [c3wE]⟩ DEFAULT_GUARDRAILS c3wOpts =
        ⟨102, [c3wE], 85, 3600, DayType.endurance, some 90⟩ := by
      simp only [analyzeDay, hdt, hint, c3wOpts]
      norm_num [sumLoads, sumMovingTime, safeInt, jround, c3wE,
        DEFAULT_GUARDRAILS, LONG_RIDE_TIME_THRESHOLD_SEC]
    have hinfos : dayInfosOf c3wWk DEFAULT_GUARDRAILS c3wOpts =
        [⟨102, [c3wE], 85, 3600, DayType.endurance, some 90⟩] := by
      rw [dayInfosOf, hgroup]
      simp [hinfo]
    intro d hd c hc
    rw [hinfos] at hd
    simp only [List.mem_cons, List.not_mem_nil, or_false] at hd
    subst hd
    simp only [Option.some.injEq] at hc
    subst hc
    constructor
    · norm_num [roundStep, jround, DEFAULT_GUARDRAILS]
    · norm_num
  exact ⟨h1, h2, h3, h4, h5,
    scaleWeekToTarget_caps c3wWk DEFAULT_GUARDRAILS c3wOpts h1 h2 h3 h4 h5⟩

/-! ### Claim C4: sum-of-parts invariant of the per-day distribution -/
/-- Number of events whose load is at least the step (used as the clamp-free
budget of the negative drift loop). -/
def countGE (s : ℤ) (evs : List WorkoutEvent) : Nat :=
  (evs.filter (fun e => decide ((s : ℚ) ≤ e.icu_training_load))).length

theorem mem_of_getElemOpt : ∀ (l : List α) (i : Nat) (a : α), l[i]? = some a → a ∈ l := by
  intro l
  induction l with
  | nil => intro i a h; simp at h
  | cons x xs ih =>
    intro i a h
    cases i with
    | zero =>
      simp only [List.getElem?_cons_zero, Option.some.injEq] at h
      exact h ▸ List.mem_cons_self _ _
    | succ j =>
      simp only [List.getElem?_cons_succ] at h
      exact List.mem_cons_of_mem _ (ih j a h)

theorem sumLoads_eq_sum (l : List WorkoutEvent) :
    sumLoads l = (l.map (fun e => ((safeInt e.icu_training_load : ℚ)))).sum := by
  unfold sumLoads
  exact (foldl_add_map (fun e => ((safeInt e.icu_training_load : ℚ))) l 0).trans
    (zero_add _)

theorem sum_map_div (l : List ℤ) (c : ℚ) :
    (l.map (fun x : ℤ => (x : ℚ) / c)).sum = (l.map (fun x : ℤ => (x : ℚ))).sum / c := by
  induction l with
  | nil => simp
  | cons x xs ih => simp [ih, add_div]

theorem sum_map_const (l : List α) (c : ℚ) :
    (l.map (fun _ => c)).sum = (l.length : ℚ) * c := by
  induction l with
  | nil => simp
  | cons x xs ih =>
    simp only [List.map_cons, List.sum_cons, ih, List.length_cons]
    push_cast
    ring

theorem roundStep_mult (x : ℚ) (s : ℤ) (hs : 1 ≤ s) :
    ∃ m : ℤ, roundStep x (s : ℚ) = ((s * m : ℤ) : ℚ) := by
  unfold roundStep
  split_ifs with h
  · have hs1 : s = 1 := le_antisymm (by exact_mod_cast h) hs
    subst hs1
    exact ⟨jround x, by push_cast; ring⟩
  · exact ⟨jround (x / (s : ℚ)), by push_cast; ring⟩

theorem roundStep_sub_le (x : ℚ) (s : ℤ) (hs : 1 ≤ s) :
    roundStep x (s : ℚ) - x ≤ (s : ℚ) / 2 := by
  have hjr : ∀ y : ℚ, (jround y : ℚ) ≤ y + 1/2 := by
    intro y
    unfold jround
    exact_mod_cast Int.floor_le (y + 1/2)
  unfold roundStep
  split_ifs with h
  · have h1 : (1 : ℚ) ≤ (s : ℚ) := by exact_mod_cast hs
    have := hjr x
    linarith
  · have hs0 : (0 : ℚ) < (s : ℚ) := by
      have : (1 : ℚ) ≤ (s : ℚ) := by exact_mod_cast hs
      linarith
    have := hjr (x / (s : ℚ))
    have h2 : (jround (x / (s : ℚ)) : ℚ) * (s : ℚ) ≤ (x / (s : ℚ) + 1/2) * (s : ℚ) :=
      mul_le_mul_of_nonneg_right this hs0.le
    have h3 : (x / (s : ℚ) + 1/2) * (s : ℚ) = x + (s : ℚ) / 2 := by
      field_simp
      ring
    linarith [h2, h3.le]

theorem filter_set_length_ge (p : α → Bool) :
    ∀ (l : List α) (i : Nat) (a : α),
      (l.filter p).length ≤ ((l.set i a).filter p).length + 1 := by
  intro l
  induction l with
  | nil => intro i a; simp
  | cons x xs ih =>
    intro i a
    cases i with
    | zero =>
      simp only [List.set_cons_zero, List.filter_cons]
      split_ifs <;> (try simp only [List.length_cons]) <;> omega
    | succ j =>
      simp only [List.set_cons_succ, List.filter_cons]
      have := ih j a
      split_ifs <;> (try simp only [List.length_cons]) <;> omega

theorem sum_map_set (f : α → ℚ) :
    ∀ (l : List α) (i : Nat) (a a' : α), l[i]? = some a →
      ((l.set i a').map f).sum = (l.map f).sum - f a + f a' := by
  intro l
  induction l with
  | nil => intro i a a' h; simp at h
  | cons x xs ih =>
    intro i a a' h
    cases i with
    | zero =>
      simp only [List.getElem?_cons_zero, Option.some.injEq] at h
      subst h
      simp only [List.set_cons_zero, List.map_cons, List.sum_cons]
      ring
    | succ j =>
      simp only [List.getElem?_cons_succ] at h
      simp only [List.set_cons_succ, List.map_cons, List.sum_cons, ih j a a' h]
      ring

/-- The fold step of indexOfMaxLoad, named for reasoning. -/
def idxMaxStep (st : Nat × Nat × Option ℤ) (e : WorkoutEvent) : Nat × Nat × Option ℤ :=
  let v := toInt e.icu_training_load
  let better :=
    match st.2.2 with
    | none => true
    | some m => m < v
  (st.1 + 1, (if better then st.1 else st.2.1), if better then some v else st.2.2)

theorem idxMaxStep_aux :
    ∀ (l : List WorkoutEvent) (n b : Nat) (m : Option ℤ),
      ((l.foldl idxMaxStep (n, b, m)).2.1 = b ∧ (l.foldl idxMaxStep (n, b, m)).2.2 = m ∧
        (∀ e ∈ l, ∃ mv, m = some mv ∧ toInt e.icu_training_load ≤ mv)) ∨
      (∃ j M, j < l.length ∧ (l.foldl idxMaxStep (n, b, m)).2.1 = n + j ∧
        (l.foldl idxMaxStep (n, b, m)).2.2 = some M ∧
        (∃ e, l[j]? = some e ∧ toInt e.icu_training_load = M) ∧
        (∀ e ∈ l, toInt e.icu_training_load ≤ M) ∧
        (∀ mv, m = some mv → mv < M)) := by
  intro l
  induction l with
  | nil =>
    intro n b m
    left
    exact ⟨rfl, rfl, by intro e he; cases he⟩
  | cons x xs ih =>
    intro n b m
    rcases m with _ | mv
    · have hstep : idxMaxStep (n, b, none) x = (n + 1, n, some (toInt x.icu_training_load)) := rfl
      rw [List.foldl_cons, hstep]
      rcases ih (n + 1) n (some (toInt x.icu_training_load)) with
        ⟨h1, h2, h3⟩ | ⟨j, M, hj, h1, h2, ⟨e, he, hev⟩, h4, h5⟩
      · right
        refine ⟨0, toInt x.icu_training_load, by simp, by rw [h1]; omega, h2, ⟨x, List.getElem?_cons_zero, rfl⟩, ?_, ?_⟩
        · intro e' he'
          rcases List.mem_cons.mp he' with rfl | he''
          · exact le_refl _
          · obtain ⟨mv, hmv, hle⟩ := h3 e' he''
            rw [Option.some.injEq] at hmv
            exact hmv ▸ hle
        · intro mv h
          cases h
      · right
        refine ⟨j + 1, M, by simpa using hj, by rw [h1]; omega, h2,
          ⟨e, by simpa using he, hev⟩, ?_, ?_⟩
        · intro e' he'
          rcases List.mem_cons.mp he' with rfl | he''
          · exact (h5 _ rfl).le
          · exact h4 e' he''
        · intro mv h
          cases h
    · by_cases hlt : mv < toInt x.icu_training_load
      · have hstep : idxMaxStep (n, b, some mv) x =
            (n + 1, n, some (toInt x.icu_training_load)) := by
          simp [idxMaxStep, hlt]
        rw [List.foldl_cons, hstep]
        rcases ih (n + 1) n (some (toInt x.icu_training_load)) with
          ⟨h1, h2, h3⟩ | ⟨j, M, hj, h1, h2, ⟨e, he, hev⟩, h4, h5⟩
        · right
          refine ⟨0, toInt x.icu_training_load, by simp, by rw [h1]; omega, h2, ⟨x, List.getElem?_cons_zero, rfl⟩, ?_, ?_⟩
          · intro e' he'
            rcases List.mem_cons.mp he' with rfl | he''
            · exact le_refl _
            · obtain ⟨mv', hmv, hle⟩ := h3 e' he''
              rw [Option.some.injEq] at hmv
              exact hmv ▸ hle
          · intro mv' h
            rw [Option.some.injEq] at h
            exact h ▸ hlt
        · right
          refine ⟨j + 1, M, by simpa using hj, by rw [h1]; omega, h2,
            ⟨e, by simpa using he, hev⟩, ?_, ?_⟩
          · intro e' he'
            rcases List.mem_cons.mp he' with rfl | he''
            · exact (h5 _ rfl).le
            · exact h4 e' he''
          · intro mv' h
            rw [Option.some.injEq] at h
            exact h ▸ (hlt.trans (h5 _ rfl))
      · have hstep : idxMaxStep (n, b, some mv) x = (n + 1, b, some mv) := by
          simp [idxMaxStep, hlt]
        rw [List.foldl_cons, hstep]
        rcases ih (n + 1) b (some mv) with
          ⟨h1, h2, h3⟩ | ⟨j, M, hj, h1, h2, ⟨e, he, hev⟩, h4, h5⟩
        · left
          refine ⟨h1, h2, ?_⟩
          intro e' he'
          rcases List.mem_cons.mp he' with rfl | he''
          · exact ⟨mv, rfl, not_lt.mp hlt⟩
          · exact h3 e' he''
        · right
          refine ⟨j + 1, M, by simpa using hj, by rw [h1]; omega, h2,
            ⟨e, by simpa using he, hev⟩, ?_, ?_⟩
          · intro e' he'
            rcases List.mem_cons.mp he' with rfl | he''
            · exact le_trans (not_lt.mp hlt) (h5 _ rfl).le
            · exact h4 e' he''
          · intro mv' h
            rw [Option.some.injEq] at h
            exact h ▸ h5 _ rfl

theorem indexOfMaxLoad_spec (evs : List WorkoutEvent) (hne : evs ≠ []) :
    ∃ e, evs[indexOfMaxLoad evs]? = some e ∧
      ∀ e' ∈ evs, toInt e'.icu_training_load ≤ toInt e.icu_training_load := by
  have hfold : indexOfMaxLoad evs = (evs.foldl idxMaxStep (0, 0, none)).2.1 := rfl
  rcases idxMaxStep_aux evs 0 0 none with
    ⟨h1, h2, h3⟩ | ⟨j, M, hj, h1, h2, ⟨e, he, hev⟩, h4, h5⟩
  · obtain ⟨x, hx⟩ := List.exists_mem_of_length_pos (List.length_pos.mpr hne)
    obtain ⟨mv, hmv, -⟩ := h3 x hx
    cases hmv
  · refine ⟨e, ?_, ?_⟩
    · rw [hfold, h1]
      simpa using he
    · intro e' he'
      exact le_of_le_of_eq (h4 e' he') hev.symm

theorem clampLoad_of_nonneg (e : WorkoutEvent) (h : 0 ≤ e.icu_training_load) :
    clampLoad e = e := by
  unfold clampLoad
  rw [if_neg (not_lt.mpr h)]

theorem applyNudges_sum (s : ℤ) (hs1 : 1 ≤ s) :
    ∀ (fuel : Nat) (d : ℤ) (evs : List WorkoutEvent),
      evs ≠ [] →
      (∀ e ∈ evs, ∃ k : ℤ, e.icu_training_load = (k : ℚ) ∧ 0 ≤ k) →
      (d < 0 → 2 * |d| ≤ s * (countGE s evs : ℤ)) →
      |d| ≤ (fuel : ℤ) →
      ∃ evs', applyNudges (s : ℚ) fuel ((d : ℤ) : ℚ) evs = some evs' ∧
        sumLoads evs' = sumLoads evs + ((d : ℤ) : ℚ) ∧ evs'.length = evs.length := by
  intro fuel
  induction fuel with
  | zero =>
    intro d evs hne hint hinv hf
    have hd0 : d = 0 := abs_eq_zero.mp (le_antisymm (by simpa using hf) (abs_nonneg d))
    subst hd0
    refine ⟨evs, ?_, by simp, rfl⟩
    simpa using applyNudges_zero_drift (s : ℚ) 0 evs
  | succ fuel ih =>
    intro d evs hne hint hinv hf
    by_cases hd0 : d = 0
    · subst hd0
      refine ⟨evs, ?_, by simp, rfl⟩
      simpa using applyNudges_zero_drift (s : ℚ) (fuel + 1) evs
    · have hdq0 : ((d : ℤ) : ℚ) ≠ 0 := by exact_mod_cast hd0
      simp only [applyNudges, if_neg hdq0]
      obtain ⟨e, hidx, hmax⟩ := indexOfMaxLoad_spec evs hne
      obtain ⟨L, hL, hL0⟩ := hint e (mem_of_getElemOpt evs _ e hidx)
      simp only [hidx]
      have habs1 : 1 ≤ |d| := by
        have := abs_pos.mpr hd0
        linarith
      have hdec1 : 1 ≤ min |d| s := le_min habs1 hs1
      have hdecle : min |d| s ≤ |d| := min_le_left _ _
      have hdecs : min |d| s ≤ s := min_le_right _ _
      have hminq : min |((d : ℤ) : ℚ)| ((s : ℤ) : ℚ) = ((min |d| s : ℤ) : ℚ) := by
        push_cast
        rfl
      rcases (Ne.lt_or_lt hd0 : d < 0 ∨ 0 < d) with hneg | hpos
      · -- negative drift: nudge the largest entry downward
        have habs : |d| = -d := abs_of_neg hneg
        have hsign : jsign ((d : ℤ) : ℚ) = -1 := by
          unfold jsign
          rw [if_neg (by exact_mod_cast not_lt.mpr hneg.le), if_pos (by exact_mod_cast hneg)]
        have hinc : jsign ((d : ℤ) : ℚ) * min |((d : ℤ) : ℚ)| ((s : ℤ) : ℚ) =
            ((-(min |d| s) : ℤ) : ℚ) := by
          rw [hsign, hminq]
          push_cast
          ring
        have h2d := hinv hneg
        have hknn : (0 : ℤ) ≤ (countGE s evs : ℤ) := Int.ofNat_nonneg _
        have hk1 : 1 ≤ (countGE s evs : ℤ) := by
          by_contra hk
          push_neg at hk
          have hk0 : (countGE s evs : ℤ) = 0 := by omega
          rw [hk0, mul_zero] at h2d
          linarith
        have hsL : s ≤ L := by
          have hposlen : 0 < (evs.filter (fun e => decide ((s : ℚ) ≤ e.icu_training_load))).length := by
            have : 1 ≤ countGE s evs := by exact_mod_cast hk1
            unfold countGE at this
            omega
          obtain ⟨e₀, he₀⟩ := List.exists_mem_of_length_pos hposlen
          obtain ⟨he₀m, he₀p⟩ := List.mem_filter.mp he₀
          have hsle : (s : ℚ) ≤ e₀.icu_training_load := of_decide_eq_true he₀p
          obtain ⟨k₀, hk₀, hk₀0⟩ := hint e₀ he₀m
          have hsk₀ : s ≤ k₀ := by
            rw [hk₀] at hsle
            exact_mod_cast hsle
          have hmx := hmax e₀ he₀m
          rw [hk₀, hL, toInt_intCast, toInt_intCast] at hmx
          linarith
        rw [hinc, hL]
        have htoint : toInt ((L : ℚ) + ((-(min |d| s) : ℤ) : ℚ)) = L - min |d| s := by
          rw [← Int.cast_add, toInt_intCast]
          ring
        rw [htoint]
        have hclamp : clampLoad { e with icu_training_load := ((L - min |d| s : ℤ) : ℚ) } =
            { e with icu_training_load := ((L - min |d| s : ℤ) : ℚ) } := by
          apply clampLoad_of_nonneg
          show (0 : ℚ) ≤ ((L - min |d| s : ℤ) : ℚ)
          exact_mod_cast (by linarith : (0 : ℤ) ≤ L - min |d| s)
        rw [hclamp]
        have hdq : ((d : ℤ) : ℚ) - ((-(min |d| s) : ℤ) : ℚ) = ((d + min |d| s : ℤ) : ℚ) := by
          push_cast
          ring
        rw [hdq]
        have hne₂ : evs.set (indexOfMaxLoad evs)
            { e with icu_training_load := ((L - min |d| s : ℤ) : ℚ) } ≠ [] := by
          apply List.ne_nil_of_length_pos
          rw [List.length_set]
          exact List.length_pos.mpr hne
        have hint₂ : ∀ x ∈ evs.set (indexOfMaxLoad evs)
            { e with icu_training_load := ((L - min |d| s : ℤ) : ℚ) },
            ∃ k : ℤ, x.icu_training_load = (k : ℚ) ∧ 0 ≤ k := by
          intro x hx
          rcases List.mem_or_eq_of_mem_set hx with hx' | rfl
          · exact hint x hx'
          · exact ⟨L - min |d| s, rfl, by linarith⟩
        have hinv₂ : d + min |d| s < 0 →
            2 * |d + min |d| s| ≤ s * (countGE s (evs.set (indexOfMaxLoad evs)
              { e with icu_training_load := ((L - min |d| s : ℤ) : ℚ) }) : ℤ) := by
          intro hcon
          have hdecltabs : min |d| s < |d| := by
            rcases lt_or_eq_of_le hdecle with h | h
            · exact h
            · rw [habs] at h
              linarith
          have hdeceq : min |d| s = s := by
            rcases le_total |d| s with hh | hh
            · rw [min_eq_left hh] at hdecltabs
              linarith
            · rw [min_eq_right hh]
          have habs₂ : |d + min |d| s| = |d| - min |d| s := by
            rw [abs_of_neg hcon, habs]
            ring
          have hcnt : (countGE s evs : ℤ) ≤ (countGE s (evs.set (indexOfMaxLoad evs)
              { e with icu_training_load := ((L - min |d| s : ℤ) : ℚ) }) : ℤ) + 1 := by
            have := filter_set_length_ge (fun e => decide ((s : ℚ) ≤ e.icu_training_load))
              evs (indexOfMaxLoad evs)
              { e with icu_training_load := ((L - min |d| s : ℤ) : ℚ) }
            unfold countGE
            exact_mod_cast this
          rw [habs₂]
          have hm : s * (countGE s evs : ℤ) ≤ s * ((countGE s (evs.set (indexOfMaxLoad evs)
              { e with icu_training_load := ((L - min |d| s : ℤ) : ℚ) }) : ℤ) + 1) :=
            mul_le_mul_of_nonneg_left hcnt (by linarith)
          have hgoal := h2d.trans hm
          linarith [hgoal, hs1, hdeceq]
        have hf₂ : |d + min |d| s| ≤ (fuel : ℤ) := by
          rw [abs_of_nonpos (by linarith : d + min |d| s ≤ 0)]
          rw [habs] at hf
          push_cast at hf ⊢
          linarith
        obtain ⟨evs', h1, h2, h3⟩ := ih (d + min |d| s) _ hne₂ hint₂ hinv₂ hf₂
        refine ⟨evs', h1, ?_, ?_⟩
        · have hset : sumLoads (evs.set (indexOfMaxLoad evs)
              { e with icu_training_load := ((L - min |d| s : ℤ) : ℚ) }) =
              sumLoads evs - (L : ℚ) + ((L - min |d| s : ℤ) : ℚ) := by
            rw [sumLoads_eq_sum, sumLoads_eq_sum,
              sum_map_set (fun e => ((safeInt e.icu_training_load : ℚ)))
                evs (indexOfMaxLoad evs) e _ hidx]
            have hfe : ((safeInt e.icu_training_load : ℤ) : ℚ) = (L : ℚ) := by
              rw [hL, safeInt_intCast]
            have hfe' : ((safeInt (((L - min |d| s : ℤ) : ℚ)) : ℤ) : ℚ) =
                ((L - min |d| s : ℤ) : ℚ) := by
              rw [safeInt_intCast]
            rw [hfe, hfe']
          rw [h2, hset]
          push_cast
          ring
        · rw [h3, List.length_set]
      · -- positive drift: nudge the largest entry upward
        have habs : |d| = d := abs_of_pos hpos
        have hsign : jsign ((d : ℤ) : ℚ) = 1 := by
          unfold jsign
          rw [if_pos (by exact_mod_cast hpos)]
        have hinc : jsign ((d : ℤ) : ℚ) * min |((d : ℤ) : ℚ)| ((s : ℤ) : ℚ) =
            ((min |d| s : ℤ) : ℚ) := by
          rw [hsign, hminq, one_mul]
        rw [hinc, hL]
        have htoint : toInt ((L : ℚ) + ((min |d| s : ℤ) : ℚ)) = L + min |d| s := by
          rw [← Int.cast_add, toInt_intCast]
        rw [htoint]
        have hclamp : clampLoad { e with icu_training_load := ((L + min |d| s : ℤ) : ℚ) } =
            { e with icu_training_load := ((L + min |d| s : ℤ) : ℚ) } := by
          apply clampLoad_of_nonneg
          show (0 : ℚ) ≤ ((L + min |d| s : ℤ) : ℚ)
          exact_mod_cast (by linarith : (0 : ℤ) ≤ L + min |d| s)
        rw [hclamp]
        have hdq : ((d : ℤ) : ℚ) - ((min |d| s : ℤ) : ℚ) = ((d - min |d| s : ℤ) : ℚ) := by
          push_cast
          ring
        rw [hdq]
        have hne₂ : evs.set (indexOfMaxLoad evs)
            { e with icu_training_load := ((L + min |d| s : ℤ) : ℚ) } ≠ [] := by
          apply List.ne_nil_of_length_pos
          rw [List.length_set]
          exact List.length_pos.mpr hne
        have hint₂ : ∀ x ∈ evs.set (indexOfMaxLoad evs)
            { e with icu_training_load := ((L + min |d| s : ℤ) : ℚ) },
            ∃ k : ℤ, x.icu_training_load = (k : ℚ) ∧ 0 ≤ k := by
          intro x hx
          rcases List.mem_or_eq_of_mem_set hx with hx' | rfl
          · exact hint x hx'
          · exact ⟨L + min |d| s, rfl, by linarith⟩
        have hinv₂ : d - min |d| s < 0 →
            2 * |d - min |d| s| ≤ s * (countGE s (evs.set (indexOfMaxLoad evs)
              { e with icu_training_load := ((L + min |d| s : ℤ) : ℚ) }) : ℤ) := by
          intro hcon
          exfalso
          linarith
        have hf₂ : |d - min |d| s| ≤ (fuel : ℤ) := by
          rw [abs_of_nonneg (by linarith : (0 : ℤ) ≤ d - min |d| s)]
          push_cast at hf
          linarith
        obtain ⟨evs', h1, h2, h3⟩ := ih (d - min |d| s) _ hne₂ hint₂ hinv₂ hf₂
        refine ⟨evs', h1, ?_, ?_⟩
        · have hset : sumLoads (evs.set (indexOfMaxLoad evs)
              { e with icu_training_load := ((L + min |d| s : ℤ) : ℚ) }) =
              sumLoads evs - (L : ℚ) + ((L + min |d| s : ℤ) : ℚ) := by
            rw [sumLoads_eq_sum, sumLoads_eq_sum,
              sum_map_set (fun e => ((safeInt e.icu_training_load : ℚ)))
                evs (indexOfMaxLoad evs) e _ hidx]
            have hfe : ((safeInt e.icu_training_load : ℤ) : ℚ) = (L : ℚ) := by
              rw [hL, safeInt_intCast]
            have hfe' : ((safeInt (((L + min |d| s : ℤ) : ℚ)) : ℤ) : ℚ) =
                ((L + min |d| s : ℤ) : ℚ) := by
              rw [safeInt_intCast]
            rw [hfe, hfe']
          rw [h2, hset]
          push_cast
          ring
        · rw [h3, List.length_set]

theorem sumLoads_cons (e : WorkoutEvent) (l : List WorkoutEvent) :
    sumLoads (e :: l) = (safeInt e.icu_training_load : ℚ) + sumLoads l := by
  rw [sumLoads_eq_sum, sumLoads_eq_sum, List.map_cons, List.sum_cons]

theorem sumLoads_map_cloneEvent (l : List WorkoutEvent) :
    sumLoads (l.map cloneEvent) = sumLoads l := by
  induction l with
  | nil => rfl
  | cons e t ih =>
    rw [List.map_cons, sumLoads_cons, sumLoads_cons, ih]
    have : safeInt (cloneEvent e).icu_training_load = safeInt e.icu_training_load := by
      show safeInt ((toInt e.icu_training_load : ℤ) : ℚ) = safeInt e.icu_training_load
      rw [safeInt_intCast]
      rfl
    rw [this]

theorem foldl_add_self_int (l : List ℤ) (a : ℤ) :
    l.foldl (fun s x => s + x) a = a + l.sum := by
  induction l generalizing a with
  | nil => simp
  | cons x xs ih => simp [ih, add_assoc]

theorem sum_map_intCast (l : List ℤ) :
    (l.map (fun x : ℤ => (x : ℚ))).sum = ((l.sum : ℤ) : ℚ) := by
  induction l with
  | nil => simp
  | cons x xs ih =>
    rw [List.map_cons, List.sum_cons, ih, List.sum_cons]
    push_cast
    ring

theorem exists_int_sum (l : List ℚ) (h : ∀ q ∈ l, ∃ m : ℤ, q = (m : ℚ)) :
    ∃ T : ℤ, l.sum = (T : ℚ) := by
  induction l with
  | nil => exact ⟨0, by simp⟩
  | cons x xs ih =>
    obtain ⟨m, hm⟩ := h x (List.mem_cons_self _ _)
    obtain ⟨T, hT⟩ := ih (fun q hq => h q (List.mem_cons_of_mem _ hq))
    exact ⟨m + T, by rw [List.sum_cons, hm, hT]; push_cast; ring⟩

theorem stepped_drift_bound (s : ℤ) (hs1 : 1 ≤ s) :
    ∀ (sh : List ℚ), (∀ x ∈ sh, 0 ≤ x) →
      (sh.map (fun x => roundStep x (s : ℚ))).sum - sh.sum ≤
        ((s : ℚ) / 2) * ((((sh.map (fun x => roundStep x (s : ℚ))).filter
          (fun q => decide (0 < q))).length : ℚ) ) := by
  intro sh
  induction sh with
  | nil => intro _; simp
  | cons x xs ih =>
    intro hnn
    have hx0 : 0 ≤ x := hnn x (List.mem_cons_self _ _)
    have ih' := ih (fun y hy => hnn y (List.mem_cons_of_mem _ hy))
    have hsub := roundStep_sub_le x s hs1
    have hs0 : (0 : ℚ) ≤ (s : ℚ) := by
      have : (1 : ℚ) ≤ (s : ℚ) := by exact_mod_cast hs1
      linarith
    simp only [List.map_cons, List.sum_cons, List.filter_cons]
    by_cases hr : (0 : ℚ) < roundStep x (s : ℚ)
    · rw [if_pos (by simpa using hr)]
      simp only [List.length_cons]
      push_cast
      linarith
    · rw [if_neg (by simpa using hr)]
      have hr0 : roundStep x (s : ℚ) = 0 :=
        le_antisymm (not_lt.mp hr) (roundStep_nonneg x (s : ℚ) hx0)
      rw [hr0]
      linarith

theorem applyStepped_sum (s : ℤ) (hs1 : 1 ≤ s) :
    ∀ (evs : List WorkoutEvent) (st : List ℚ),
      evs.length = st.length →
      (∀ e ∈ evs, ∃ k : ℤ, e.icu_training_load = (k : ℚ) ∧ 0 ≤ k) →
      (∀ q ∈ st, ∃ m : ℤ, q = ((s * m : ℤ) : ℚ) ∧ 0 ≤ m) →
      sumLoads (applyStepped evs st) = sumLoads evs + st.sum ∧
      (applyStepped evs st).length = evs.length ∧
      (∀ x ∈ applyStepped evs st, ∃ k : ℤ, x.icu_training_load = (k : ℚ) ∧ 0 ≤ k) ∧
      (st.filter (fun q => decide (0 < q))).length ≤ countGE s (applyStepped evs st) := by
  intro evs
  induction evs with
  | nil =>
    intro st hlen _ _
    have hst : st = [] := List.length_eq_zero.mp hlen.symm
    subst hst
    refine ⟨by simp [applyStepped, sumLoads], rfl, ?_, ?_⟩
    · intro x hx
      simp [applyStepped] at hx
    · simp [countGE]
  | cons e evs' ih =>
    intro st hlen hint hst
    cases st with
    | nil => simp at hlen
    | cons q st' =>
      obtain ⟨k, hk, hk0⟩ := hint e (List.mem_cons_self _ _)
      obtain ⟨m, hm, hm0⟩ := hst q (List.mem_cons_self _ _)
      have hlen' : evs'.length = st'.length := by
        simpa using hlen
      have hint' : ∀ x ∈ evs', ∃ k : ℤ, x.icu_training_load = (k : ℚ) ∧ 0 ≤ k :=
        fun x hx => hint x (List.mem_cons_of_mem _ hx)
      have hst' : ∀ x ∈ st', ∃ m : ℤ, x = ((s * m : ℤ) : ℚ) ∧ 0 ≤ m :=
        fun x hx => hst x (List.mem_cons_of_mem _ hx)
      obtain ⟨ihsum, ihlen, ihint, ihcnt⟩ := ih st' hlen' hint' hst'
      have hcl : (cloneEvent e).icu_training_load = (k : ℚ) := by
        show ((toInt e.icu_training_load : ℤ) : ℚ) = (k : ℚ)
        rw [hk, toInt_intCast]
      have hsm0 : 0 ≤ s * m := mul_nonneg (by linarith) hm0
      have hload : toInt ((cloneEvent e).icu_training_load + q) = k + s * m := by
        rw [hcl, hm, ← Int.cast_add, toInt_intCast]
      have hx0eq : clampLoad { cloneEvent e with
          icu_training_load := (toInt ((cloneEvent e).icu_training_load + q) : ℚ) } =
          { cloneEvent e with icu_training_load := ((k + s * m : ℤ) : ℚ) } := by
        rw [hload]
        apply clampLoad_of_nonneg
        show (0 : ℚ) ≤ ((k + s * m : ℤ) : ℚ)
        exact_mod_cast (by linarith : (0 : ℤ) ≤ k + s * m)
      have hcons : applyStepped (e :: evs') (q :: st') =
          clampLoad { cloneEvent e with
            icu_training_load := (toInt ((cloneEvent e).icu_training_load + q) : ℚ) } ::
            applyStepped evs' st' := by
        show (((e :: evs').map cloneEvent).zip (q :: st')).map _ = _
        rw [List.map_cons, List.zip_cons_cons, List.map_cons]
        rfl
      rw [hcons, hx0eq]
      refine ⟨?_, ?_, ?_, ?_⟩
      · rw [sumLoads_cons, sumLoads_cons, ihsum, List.sum_cons]
        have h1 : safeInt ({ cloneEvent e with
            icu_training_load := ((k + s * m : ℤ) : ℚ) } : WorkoutEvent).icu_training_load =
            k + s * m := safeInt_intCast _
        have h2 : safeInt e.icu_training_load = k := by
          rw [hk]
          exact safeInt_intCast _
        rw [h1, h2, hm]
        push_cast
        ring
      · simp only [List.length_cons, ihlen]
      · intro x hx
        rcases List.mem_cons.mp hx with rfl | hx'
        · exact ⟨k + s * m, rfl, by linarith⟩
        · exact ihint x hx'
      · simp only [List.filter_cons]
        by_cases hq : (0 : ℚ) < q
        · rw [if_pos (by simpa using hq)]
          have hm1 : 1 ≤ m := by
            by_contra hcon
            push_neg at hcon
            have : m ≤ 0 := by omega
            have : s * m ≤ 0 := mul_nonpos_of_nonneg_of_nonpos (by linarith) this
            rw [hm] at hq
            have : ((s * m : ℤ) : ℚ) ≤ 0 := by exact_mod_cast this
            linarith
          have hge : (s : ℚ) ≤ ((k + s * m : ℤ) : ℚ) := by
            have : s ≤ k + s * m := by nlinarith
            exact_mod_cast this
          unfold countGE
          simp only [List.filter_cons]
          rw [if_pos (by simpa using hge)]
          simp only [List.length_cons]
          have : (st'.filter (fun q => decide (0 < q))).length ≤
              countGE s (applyStepped evs' st') := ihcnt
          unfold countGE at this
          omega
        · rw [if_neg (by simpa using hq)]
          unfold countGE
          simp only [List.filter_cons]
          split_ifs
          · simp only [List.length_cons]
            have := ihcnt
            unfold countGE at this
            omega
          · have := ihcnt
            unfold countGE at this
            omega

theorem sum_map_mul_left_q (l : List ℚ) (c : ℚ) :
    (l.map (fun x => c * x)).sum = c * l.sum := by
  induction l with
  | nil => simp
  | cons x xs ih => simp [ih, mul_add]

theorem distribute_core (s : ℤ) (hs1 : 1 ≤ s) (D : ℤ) (hD : 0 ≤ D)
    (events : List WorkoutEvent) (hne : events ≠ [])
    (hint : ∀ e ∈ events, ∃ k : ℤ, e.icu_training_load = (k : ℚ) ∧ 0 ≤ k)
    (weights : List ℚ) (hwnn : ∀ w ∈ weights, 0 ≤ w) (hwsum : weights.sum = 1)
    (hst : steppedShares events ((D : ℤ) : ℚ) ((s : ℤ) : ℚ) =
      weights.map (fun w => roundStep (((D : ℤ) : ℚ) * w) ((s : ℤ) : ℚ))) :
    ∃ l', applyNudges ((s : ℤ) : ℚ)
        (nudgeFuel (((D : ℤ) : ℚ) -
          (steppedShares events ((D : ℤ) : ℚ) ((s : ℤ) : ℚ)).foldl (fun a x => a + x) 0))
        (((D : ℤ) : ℚ) -
          (steppedShares events ((D : ℤ) : ℚ) ((s : ℤ) : ℚ)).foldl (fun a x => a + x) 0)
        (applyStepped events (steppedShares events ((D : ℤ) : ℚ) ((s : ℤ) : ℚ))) = some l' ∧
      sumLoads l' = sumLoads events + ((D : ℤ) : ℚ) ∧ l'.length = events.length := by
  set st := steppedShares events ((D : ℤ) : ℚ) ((s : ℤ) : ℚ) with hstdef
  have hmm : st = (weights.map (fun w => ((D : ℤ) : ℚ) * w)).map
      (fun x => roundStep x ((s : ℤ) : ℚ)) := by
    rw [hst, List.map_map]
    rfl
  have hshnn : ∀ x ∈ weights.map (fun w => ((D : ℤ) : ℚ) * w), 0 ≤ x := by
    intro x hx
    obtain ⟨w, hw, rfl⟩ := List.mem_map.mp hx
    exact mul_nonneg (by exact_mod_cast hD) (hwnn w hw)
  have hshsum : (weights.map (fun w => ((D : ℤ) : ℚ) * w)).sum = ((D : ℤ) : ℚ) := by
    rw [sum_map_mul_left_q, hwsum, mul_one]
  have hstelem : ∀ q ∈ st, ∃ m : ℤ, q = ((s * m : ℤ) : ℚ) ∧ 0 ≤ m := by
    intro q hq
    rw [hst] at hq
    obtain ⟨w, hw, rfl⟩ := List.mem_map.mp hq
    obtain ⟨m, hm⟩ := roundStep_mult (((D : ℤ) : ℚ) * w) s hs1
    refine ⟨m, hm, ?_⟩
    have h0 : 0 ≤ roundStep (((D : ℤ) : ℚ) * w) ((s : ℤ) : ℚ) :=
      roundStep_nonneg _ _ (mul_nonneg (by exact_mod_cast hD) (hwnn w hw))
    rw [hm] at h0
    have h0' : (0 : ℤ) ≤ s * m := by exact_mod_cast h0
    by_contra hcon
    push_neg at hcon
    nlinarith [h0', hs1, hcon]
  have hstlen : st.length = events.length := by
    rw [hstdef]
    exact steppedShares_length events _ _
  obtain ⟨hsum₁, hlen₁, hint₁, hcnt₁⟩ :=
    applyStepped_sum s hs1 events st hstlen.symm hint hstelem
  have hfold : st.foldl (fun a x => a + x) 0 = st.sum := by
    rw [foldl_add_self, zero_add]
  obtain ⟨T, hT⟩ : ∃ T : ℤ, st.sum = (T : ℚ) := by
    apply exists_int_sum
    intro q hq
    obtain ⟨m, hm, -⟩ := hstelem q hq
    exact ⟨s * m, hm⟩
  have hdrift : ((D : ℤ) : ℚ) - st.foldl (fun a x => a + x) 0 = ((D - T : ℤ) : ℚ) := by
    rw [hfold, hT]
    push_cast
    ring
  rw [hdrift]
  have hfuel : |D - T| ≤ ((nudgeFuel (((D - T : ℤ) : ℚ)) : ℕ) : ℤ) := by
    unfold nudgeFuel
    have h1 : |(((D - T : ℤ) : ℚ))| = ((|D - T| : ℤ) : ℚ) := by
      push_cast
      rfl
    rw [h1, Int.ceil_intCast]
    push_cast [Int.toNat_of_nonneg (abs_nonneg (D - T))]
    linarith
  have hne₁ : applyStepped events st ≠ [] := by
    apply List.ne_nil_of_length_pos
    rw [hlen₁]
    exact List.length_pos.mpr hne
  have hinv : (D - T) < 0 → 2 * |D - T| ≤ s * (countGE s (applyStepped events st) : ℤ) := by
    intro hneg
    have hb := stepped_drift_bound s hs1 (weights.map (fun w => ((D : ℤ) : ℚ) * w)) hshnn
    rw [← hmm, hshsum, hT] at hb
    have hcntq : (((st.filter (fun q => decide (0 < q))).length : ℕ) : ℚ) ≤
        ((countGE s (applyStepped events st) : ℕ) : ℚ) := by
      exact_mod_cast hcnt₁
    have hs0 : (0 : ℚ) ≤ (s : ℚ) := by
      exact_mod_cast (by linarith : (0 : ℤ) ≤ s)
    have habs : |D - T| = T - D := by
      rw [abs_of_neg hneg]
      ring
    have hq : 2 * ((T : ℚ) - (D : ℚ)) ≤
        (s : ℚ) * ((countGE s (applyStepped events st) : ℕ) : ℚ) := by
      nlinarith [hb, mul_nonneg hs0 (sub_nonneg.mpr hcntq)]
    rw [habs]
    exact_mod_cast hq
  obtain ⟨l', h1, h2, h3⟩ :=
    applyNudges_sum s hs1 _ (D - T) (applyStepped events st) hne₁ hint₁ hinv hfuel
  refine ⟨l', h1, ?_, ?_⟩
  · rw [h2, hsum₁, hT]
    push_cast
    ring
  · rw [h3, hlen₁]

/-- C4 amended: for a day with two or more entries, integer nonnegative
entry loads, an integer min_step of at least 1 and a nonnegative integer
appliedDelta, the per-entry distribution (proportional shares, even split
when all loads are zero, each share rounded to the step, drift absorbed by
nudging the currently-largest entry) returns entry deltas summing exactly
to appliedDelta, preserving the number of entries. For negative
appliedDelta the zero floor of the nudge loop can break the invariant (see
the counterexample), so the claim is amended to the scaling-up case. -/
theorem distributeDeltaAcrossEvents_sum (s : ℤ) (hs1 : 1 ≤ s) (D : ℤ) (hD : 0 ≤ D)
    (events : List WorkoutEvent) (hlen2 : 2 ≤ events.length)
    (hint : ∀ e ∈ events, ∃ k : ℤ, e.icu_training_load = (k : ℚ) ∧ 0 ≤ k) :
    ∃ l', distributeDeltaAcrossEvents events ((D : ℤ) : ℚ) ((s : ℤ) : ℚ) = some l' ∧
      sumLoads l' = sumLoads events + ((D : ℤ) : ℚ) ∧ l'.length = events.length := by
  by_cases hD0 : D = 0
  · subst hD0
    refine ⟨events.map cloneEvent, ?_, ?_, by rw [List.length_map]⟩
    · simp [distributeDeltaAcrossEvents]
    · rw [sumLoads_map_cloneEvent]
      simp
  · have hq0 : ((D : ℤ) : ℚ) ≠ 0 := by exact_mod_cast hD0
    obtain ⟨a, b, rest, rfl⟩ : ∃ a b rest, events = a :: b :: rest := by
      cases events with
      | nil => simp at hlen2
      | cons a t =>
        cases t with
        | nil => simp at hlen2
        | cons b rest => exact ⟨a, b, rest, rfl⟩
    have hne : (a :: b :: rest) ≠ [] := by simp
    simp only [distributeDeltaAcrossEvents, if_neg hq0]
    by_cases hS : 0 < ((a :: b :: rest).map
        (fun e => max 0 (toInt e.icu_training_load))).foldl (fun s x => s + x) 0
    · have hSnn : (0 : ℤ) < ((a :: b :: rest).map
          (fun e => max 0 (toInt e.icu_training_load))).sum := by
        rw [← zero_add (((a :: b :: rest).map
          (fun e => max 0 (toInt e.icu_training_load))).sum), ← foldl_add_self_int]
        exact hS
      apply distribute_core s hs1 D hD _ hne hint
        (((a :: b :: rest).map (fun e => max 0 (toInt e.icu_training_load))).map
          (fun x : ℤ => (x : ℚ) / ((((a :: b :: rest).map
            (fun e => max 0 (toInt e.icu_training_load))).foldl (fun s x => s + x) 0 : ℤ) : ℚ)))
      · intro w hw
        obtain ⟨x, hx, rfl⟩ := List.mem_map.mp hw
        obtain ⟨e, he, rfl⟩ := List.mem_map.mp hx
        apply div_nonneg
        · exact_mod_cast le_max_left 0 (toInt e.icu_training_load)
        · exact_mod_cast (by rw [foldl_add_self_int, zero_add]; linarith : (0 : ℤ) ≤
            ((a :: b :: rest).map (fun e => max 0 (toInt e.icu_training_load))).foldl
              (fun s x => s + x) 0)
      · rw [sum_map_div, sum_map_intCast, foldl_add_self_int, zero_add]
        apply div_self
        exact_mod_cast hSnn.ne'
      · simp only [steppedShares]
        rw [if_pos hS]
    · apply distribute_core s hs1 D hD _ hne hint
        ((a :: b :: rest).map (fun _ => 1 / (((a :: b :: rest).length : ℕ) : ℚ)))
      · intro w hw
        obtain ⟨e, he, rfl⟩ := List.mem_map.mp hw
        positivity
      · rw [sum_map_const, mul_one_div]
        apply div_self
        exact_mod_cast (by simp : ((a :: b :: rest).length : ℕ) ≠ 0)
      · simp only [steppedShares]
        rw [if_neg hS]

/-- Event for the C4 counterexample: load 1. -/
def c4E1 : WorkoutEvent :=
  { external_id := "a", startDate := 0, startTime := "T08:00",
    type := ActivityType.Ride, moving_time := 0, icu_training_load := 1,
    description := "" }

/-- Event for the C4 counterexample: load 9. -/
def c4E9 : WorkoutEvent :=
  { external_id := "b", startDate := 0, startTime := "T08:00",
    type := ActivityType.Ride, moving_time := 0, icu_training_load := 9,
    description := "" }

/-- C4 counterexample: distributing appliedDelta -10 with min_step 2 over
loads [1, 9] gives rounded shares [0, -8], then the drift loop pushes -2
onto the (now) largest entry, whose load 1 floors at 0; the final loads are
[0, 1], so the entry deltas sum to -9, not the appliedDelta -10. The
sum-of-parts invariant fails for negative deltas that hit the zero floor. -/
theorem distribute_negative_delta_breaks_sum :
    (distributeDeltaAcrossEvents [c4E1, c4E9] (-10) 2).map
      (fun l => l.map (fun e => e.icu_training_load)) = some [(0 : ℚ), (1 : ℚ)] ∧
    (0 : ℚ) + 1 ≠ (1 : ℚ) + 9 + (-10) := by
  constructor
  · norm_num [distributeDeltaAcrossEvents, steppedShares, applyStepped,
      applyNudges, nudgeFuel, indexOfMaxLoad, cloneEvent, clampLoad, jsign,
      roundStep, jround, toInt, safeInt, c4E1, c4E9]
  · norm_num

/-- Witness for the amended C4 theorem at a concrete input: loads [1, 9],
appliedDelta 10, min_step 2. -/
theorem distributeDeltaAcrossEvents_sum_witness :
    ((1 : ℤ) ≤ 2 ∧ (0 : ℤ) ≤ 10 ∧ 2 ≤ ([c4E1, c4E9] : List WorkoutEvent).length ∧
      (∀ e ∈ ([c4E1, c4E9] : List WorkoutEvent),
        ∃ k : ℤ, e.icu_training_load = (k : ℚ) ∧ 0 ≤ k)) ∧
    (∃ l', distributeDeltaAcrossEvents [c4E1, c4E9] ((10 : ℤ) : ℚ) ((2 : ℤ) : ℚ) = some l' ∧
      sumLoads l' = sumLoads [c4E1, c4E9] + ((10 : ℤ) : ℚ) ∧
      l'.length = ([c4E1, c4E9] : List WorkoutEvent).length) := by
  have h1 : (1 : ℤ) ≤ 2 := by norm_num
  have h2 : (0 : ℤ) ≤ 10 := by norm_num
  have h3 : 2 ≤ ([c4E1, c4E9] : List WorkoutEvent).length := by decide
  have h4 : ∀ e ∈ ([c4E1, c4E9] : List WorkoutEvent),
      ∃ k : ℤ, e.icu_training_load = (k : ℚ) ∧ 0 ≤ k := by
    intro e he
    simp only [List.mem_cons, List.not_mem_nil, or_false] at he
    rcases he with rfl | rfl
    · exact ⟨1, by norm_num [c4E1], by norm_num⟩
    · exact ⟨9, by norm_num [c4E9], by norm_num⟩
  exact ⟨⟨h1, h2, h3, h4⟩,
    distributeDeltaAcrossEvents_sum 2 h1 10 h2 [c4E1, c4E9] h3 h4⟩
